import Mathlib

/-!
Verification of the orchestration engine of the finance chatbot
(`finance_chatbot/finance_agent/agent.py`): dependency scheduling
(`topo_sort_subquestions`), placeholder resolution (`resolve_placeholders`),
argument normalization (`_map_aliases_to_signature`), tool selection
(`FinancialAgent._search_tools`), the per-node answer loop
(`FinancialAgent.answer`) and the bounded conversation history.

The Python code is shallowly embedded: Python dicts become ordered
association lists (insertion order preserved, assignment to an existing key
keeps its position, as CPython guarantees), Python values become the `PyVal`
inductive, exceptions become `Except String`, and the external collaborators
(the language-model oracle, the semantic vector index, `json.loads`, the
individual domain tools) become parameters of the embedding, as the spec
treats them as opaque external interfaces.
-/

namespace FinanceAgent

/-- Model of a Python value as it flows through the agent: strings, ints,
dicts (ordered key/value association lists), lists, and `None`. -/
inductive PyVal where
  | str (s : String)
  | int (n : Int)
  | dict (d : List (String × PyVal))
  | list (xs : List PyVal)
  | none

/-- Python truthiness: `None`, `""`, `0`, `{}`, `[]` are falsy. -/
def PyVal.truthy : PyVal → Bool
  | .str s => !s.isEmpty
  | .int n => n != 0
  | .dict d => !d.isEmpty
  | .list xs => !xs.isEmpty
  | .none => false

/-- Lookup in a Python dict (`d.get(k)`): `None` when the key is absent,
mirroring that `dict.get` returns the `None` object. First binding wins;
the insertion discipline below keeps keys unique. -/
def pyGet (d : List (String × PyVal)) (k : String) : PyVal :=
  match d.find? (fun p => p.1 == k) with
  | some p => p.2
  | Option.none => PyVal.none

/-- Python dict assignment `d[k] = v`: replaces in place if the key exists
(keeping its original position), else appends at the end. -/
def pySet (d : List (String × PyVal)) (k : String) (v : PyVal) :
    List (String × PyVal) :=
  if d.any (fun p => p.1 == k) then
    d.map (fun p => if p.1 == k then (k, v) else p)
  else
    d ++ [(k, v)]

/-- Python `a or b` on values: `a` if truthy, else `b`. -/
def pyOr (a b : PyVal) : PyVal :=
  if a.truthy then a else b

/-- Python `repr` of a string with only plain characters (the strings the
agent feeds through this are placeholder keys drawn from `[A-Z0-9_]`, so the
single-quote form is always what CPython prints). -/
def pyReprStr (s : String) : String :=
  "'" ++ s ++ "'"

mutual

/-- Python `repr`/`str` of a value, as used by f-string interpolation of a
list and by `str(value)` on substitution. Sufficient for the value shapes
the agent produces. -/
def pyRepr : PyVal → String
  | .str s => pyReprStr s
  | .int n => toString n
  | .dict d => "\x7b" ++ String.intercalate ", " (pyReprEntries d) ++ "\x7d"
  | .list xs => "[" ++ String.intercalate ", " (pyReprItems xs) ++ "]"
  | .none => "None"

/-- Rendered `key: value` entries of a dict, in order. -/
def pyReprEntries : List (String × PyVal) → List String
  | [] => []
  | (k, v) :: rest => (pyReprStr k ++ ": " ++ pyRepr v) :: pyReprEntries rest

/-- Rendered items of a list, in order. -/
def pyReprItems : List PyVal → List String
  | [] => []
  | v :: rest => pyRepr v :: pyReprItems rest

end

/-- Python `str(value)`: identity on strings, `repr` otherwise. -/
def pyStr : PyVal → String
  | .str s => s
  | v => pyRepr v

/-- Python f-string rendering of a list of strings, e.g.
`['TICKER_FROM_Q1']`. -/
def pyReprStrList (xs : List String) : String :=
  "[" ++ String.intercalate ", " (xs.map pyReprStr) ++ "]"

/-- Whitespace recognized by Python `str.strip`/`str.split` and by the
regex class `\s` for the ASCII range the agent manipulates. -/
def pySpace (c : Char) : Bool :=
  c == ' ' || c == '\t' || c == '\n' || c == '\r' || c == '\x0b' || c == '\x0c'

/-- Python `str.strip()` on a character list. -/
def pyStripChars (s : List Char) : List Char :=
  (((s.dropWhile pySpace).reverse).dropWhile pySpace).reverse

/-- Python `str.strip()`. -/
def pyStrip (s : String) : String :=
  String.mk (pyStripChars s.toList)

/-- Python `str.split()` (no argument): split on whitespace runs, dropping
empty fields. -/
def pySplitWsChars : List Char → List (List Char)
  | [] => []
  | c :: cs =>
    if pySpace c then pySplitWsChars cs
    else
      match pySplitWsChars cs with
      | [] => [[c]]
      | w :: ws =>
        if pySpace (cs.headD ' ') || cs.isEmpty then [c] :: w :: ws
        else (c :: w) :: ws

/-- Python `str.split()` on a string. -/
def pySplitWs (s : String) : List String :=
  (pySplitWsChars s.toList).map String.mk

/-- Python `str.split(":")` on a character list: split at every colon,
keeping empty fields (`"a:".split(":") == ["a", ""]`). -/
def pySplitColonChars : List Char → List (List Char)
  | [] => [[]]
  | c :: cs =>
    if c = ':' then [] :: pySplitColonChars cs
    else
      match pySplitColonChars cs with
      | w :: ws => (c :: w) :: ws
      | [] => [[c]]

/-- Python `str.split(":")`. -/
def pySplitColon (s : String) : List String :=
  (pySplitColonChars s.toList).map String.mk

/-- Python `str.lower()` restricted to ASCII (`Char.toLower`); the keyword
rules of `_search_tools` and all inputs used in the theorems below are
ASCII or already-lowercase text, where this agrees with CPython. -/
def pyLower (s : String) : String :=
  String.mk (s.toList.map Char.toLower)

/-- Python substring test `needle in hay`. -/
def strContains (hay needle : String) : Bool :=
  hay.toList.tails.any (fun t => needle.toList.isPrefixOf t)

/-! ### Placeholder scanning

`PLACEHOLDER_PATTERN = re.compile(r"\{\{\s*([A-Z0-9_]+)\s*\}\}")` and its
use in `re.sub`/`finditer` (agent.py lines 23, 50-51, 93).  The character
classes `\s` and `[A-Z0-9_]` are disjoint, so the regex matches at a given
position exactly when the position starts with two braces, then a maximal
whitespace run, a maximal nonempty key-character run, a maximal whitespace
run, and two closing braces; `finditer`/`sub` take the leftmost match and
continue scanning right after it.  `splitChunks` below implements exactly
that scan. -/

/-- Characters of the capture class `[A-Z0-9_]`. -/
def isKeyChar (c : Char) : Bool :=
  ('A' ≤ c && c ≤ 'Z') || ('0' ≤ c && c ≤ '9') || c == '_'

/-- Attempt to match `PLACEHOLDER_PATTERN` at the start of the text.
Returns the full matched text (`match.group(0)`), the captured key
(`match.group(1)`) and the remaining text after the match. -/
def matchTok : List Char → Option (List Char × String × List Char)
  | '{' :: '{' :: rest =>
    let ws1 := rest.takeWhile pySpace
    let r1 := rest.dropWhile pySpace
    let keyC := r1.takeWhile isKeyChar
    let r1b := r1.dropWhile isKeyChar
    let ws2 := r1b.takeWhile pySpace
    let r2 := r1b.dropWhile pySpace
    if keyC.isEmpty then Option.none
    else
      match r2 with
      | '}' :: '}' :: r3 =>
        some ('{' :: '{' :: (ws1 ++ keyC ++ ws2 ++ ['}', '}']), String.mk keyC, r3)
      | _ => Option.none
  | _ => Option.none

/-- One piece of the scanned text: a literal character the pattern skipped,
or a full placeholder match with its captured key. -/
inductive Chunk where
  | lit (c : Char)
  | tok (full : List Char) (key : String)
  deriving DecidableEq

/-- Fuel-indexed scanner; every step consumes at least one character, so
fuel `s.length` never runs out (`splitChunks_join` below certifies the
whole input is consumed). -/
def splitChunksF : Nat → List Char → List Chunk
  | 0, _ => []
  | Nat.succ fuel, s =>
    match matchTok s with
    | some (full, key, rest) => Chunk.tok full key :: splitChunksF fuel rest
    | Option.none =>
      match s with
      | [] => []
      | c :: cs => Chunk.lit c :: splitChunksF fuel cs

/-- The scan performed by `PLACEHOLDER_PATTERN.finditer` / `.sub`: leftmost
non-overlapping matches, one literal character at a time between them. -/
def splitChunks (s : List Char) : List Chunk :=
  splitChunksF s.length s

/-- The source text of a chunk. -/
def Chunk.text : Chunk → List Char
  | .lit c => [c]
  | .tok full _ => full

/-- Concatenation of the chunk texts. -/
def joinChunks (cs : List Chunk) : List Char :=
  (cs.map Chunk.text).join

/-- Keys of all placeholder matches, i.e. `extract_placeholders`
(agent.py lines 50-51). -/
def extract_placeholders (text : String) : List String :=
  (splitChunks text.toList).filterMap fun ch =>
    match ch with
    | .tok _ k => some k
    | .lit _ => Option.none

/-! ### The inner key pattern and value extraction

Embeds the body of `repl` inside `resolve_placeholders`
(agent.py lines 59-91). -/

/-- Digit test of `\d` (ASCII digits, all that can occur in a captured
key). -/
def isDigit (c : Char) : Bool :=
  '0' ≤ c && c ≤ '9'

/-- Split a key as `re.match(r"(.+)_FROM_Q(\d+)$", key)` does, returning
the group-1 text (here allowed to be empty; the wrapper checks `.+`) and
the digit suffix.  `.+` is greedy, so among positions where the literal
`_FROM_Q` is followed by a nonempty all-digit suffix reaching the end, the
rightmost wins; the recursion below prefers the deeper (more-to-the-right)
occurrence, which is exactly that backtracking order. -/
def splitFromQ : List Char → Option (List Char × List Char)
  | [] => Option.none
  | c :: cs =>
    match splitFromQ cs with
    | some (pre, digits) => some (c :: pre, digits)
    | Option.none =>
      if ("_FROM_Q".toList).isPrefixOf (c :: cs) then
        let digits := (c :: cs).drop 7
        if !digits.isEmpty && digits.all isDigit then some ([], digits)
        else Option.none
      else Option.none

/-- Numeric value of a digit string, as `int(m2.group(2))`. -/
def digitsToNat (ds : List Char) : Nat :=
  ds.foldl (fun n c => n * 10 + (c.toNat - '0'.toNat)) 0

/-- The full `re.match(r"(.+)_FROM_Q(\d+)$", key)`: group 1 must be
nonempty. -/
def parseKey (key : String) : Option (String × Nat) :=
  match splitFromQ key.toList with
  | some (pre, digits) =>
    if pre.isEmpty then Option.none
    else some (String.mk pre, digitsToNat digits)
  | Option.none => Option.none

/-- One per-node answer record, the dict built by `FinancialAgent.answer`
with keys `id`, `answer`, `used_tools`, `extracted_data` (agent.py lines
444-449, 460, 542-547, 551-556, 560-565).  As a structure it is always a
nonempty dict, so the `if not ans` falsiness test of line 65 coincides
with absence from the map. -/
structure AnsRec where
  id : Int
  answer : PyVal
  used_tools : List String
  extracted_data : List (String × PyVal)

/-- Lookup `answered_by_id.get(sid)`. -/
def lookupAns (m : List (Int × AnsRec)) (i : Int) : Option AnsRec :=
  (m.find? (fun p => p.1 == i)).map (fun p => p.2)

/-- The colon/whitespace heuristic of lines 77-84, including the uncaught
`IndexError` of `parts[-1].strip().split()[0]` when the text after the
last colon contains no token. -/
def strHeuristic (a : String) : Except String PyVal :=
  let txt := pyStrip a
  if strContains txt ":" then
    let parts := pySplitColon txt
    match pySplitWs (pyStrip (parts.getLastD "")) with
    | [] => Except.error "IndexError: list index out of range"
    | t :: _ => Except.ok (PyVal.str t)
  else
    match pySplitWs txt with
    | [] => Except.ok PyVal.none
    | t :: _ => Except.ok (PyVal.str t)

/-- Value extraction for a resolvable token (lines 68-88): (a) the
`extracted_data` chain `ed.get(field.lower()) or ed.get(field)`; (b) if
that is `None` and the answer is a dict, the same chain guarded by
truthiness; (c) if still `None` and the answer is a string, the colon
heuristic.  Returns `PyVal.none` when no value was found (the token is
then recorded missing by the caller). -/
def answerValue (ans : AnsRec) (field : String) : Except String PyVal :=
  let v0 := pyOr (pyGet ans.extracted_data (pyLower field))
    (pyGet ans.extracted_data field)
  match v0 with
  | PyVal.none =>
    match ans.answer with
    | PyVal.dict ad =>
      let v := pyOr (pyGet ad (pyLower field)) (pyGet ad field)
      if v.truthy then Except.ok v else Except.ok PyVal.none
    | PyVal.str s => strHeuristic s
    | _ => Except.ok PyVal.none
  | v => Except.ok v

/-- The `repl` callback applied to one matched token: returns the
replacement text and the keys appended to `missing` (lines 59-91). -/
def replKey (answered : List (Int × AnsRec)) (full : List Char)
    (key : String) : Except String (List Char × List String) :=
  match parseKey key with
  | Option.none => Except.ok (full, [key])
  | some (field, sid) =>
    match lookupAns answered (sid : Int) with
    | Option.none => Except.ok (full, [key])
    | some ans =>
      match answerValue ans field with
      | Except.error e => Except.error e
      | Except.ok PyVal.none => Except.ok (full, [key])
      | Except.ok v => Except.ok ((pyStr v).toList, [])

/-- Substitution output of one chunk: literal characters pass through,
matches go through `repl`. -/
def applyChunk (answered : List (Int × AnsRec)) :
    Chunk → Except String (List Char × List String)
  | .lit c => Except.ok ([c], [])
  | .tok full key => replKey answered full key

/-- Left-to-right substitution over the scanned chunks, accumulating the
resolved text and the `missing` list in scan order; an exception raised by
`repl` aborts the whole call, as in Python. -/
def resolveChunks (answered : List (Int × AnsRec)) :
    List Chunk → Except String (List Char × List String)
  | [] => Except.ok ([], [])
  | ch :: rest =>
    match applyChunk answered ch with
    | Except.error e => Except.error e
    | Except.ok (o1, m1) =>
      match resolveChunks answered rest with
      | Except.error e => Except.error e
      | Except.ok (o2, m2) => Except.ok (o1 ++ o2, m1 ++ m2)

/-- `resolve_placeholders` (agent.py lines 54-94): the resolved text and
the ordered list of missing keys, or the uncaught exception. -/
def resolve_placeholders (question_text : String)
    (answered : List (Int × AnsRec)) : Except String (String × List String) :=
  match resolveChunks answered (splitChunks question_text.toList) with
  | Except.error e => Except.error e
  | Except.ok (o, m) => Except.ok (String.mk o, m)

/-! ### Dependency scheduling

`topo_sort_subquestions` (agent.py lines 26-47).  Python dicts become
total functions updated pointwise plus an explicit key list in insertion
order (first occurrence wins for key position, as in CPython); the
`while q` loop becomes a fuel-indexed recursion, with fuel
`len(subquestions) + 1`, which the invariant lemmas below show is never
exhausted, so the embedding computes exactly what the unbounded Python
loop computes. -/

/-- Modelled from the spec: `SubQuestionNode` of §3 — the repository's
`models.py` (defining `SubQuestion`) is not among the provided sources;
`agent.py` accesses exactly the fields `id`, `question` and `depends_on`
(`sq["id"]`, `sq["question"]`, `sq.get("depends_on")`). -/
structure Node where
  id : Int
  question : String
  depends_on : List Int

/-- Pointwise update of a dict modelled as a total function. -/
def updF {β : Type} (f : Int → β) (i : Int) (v : β) : Int → β :=
  fun x => if x = i then v else f x

/-- Keys of a Python dict built by inserting in list order, given the keys
already seen: first occurrence fixes the position. -/
def pyKeysAux (seen : List Int) : List Int → List Int
  | [] => []
  | i :: rest =>
    if seen.contains i then pyKeysAux seen rest
    else i :: pyKeysAux (seen ++ [i]) rest

/-- Keys of a Python dict built by inserting in list order: first
occurrence fixes the position. -/
def pyKeys (l : List Int) : List Int :=
  pyKeysAux [] l

/-- `id_map[nid]`: Python dict construction keeps the last binding for a
duplicated key, hence the reverse search. -/
def idMapGet (subs : List Node) (i : Int) : Option Node :=
  subs.reverse.find? (fun sq => sq.id == i)

/-- Lines 31-35, one `dep` of one node `i`: validate the dependency
against the node-id set, append the edge `dep -> i` to the adjacency list
and increment the indegree of `i`. -/
def addEdge (subs : List Node) (st : (Int → List Int) × (Int → Int))
    (i dep : Int) : Except String ((Int → List Int) × (Int → Int)) :=
  if (subs.map Node.id).contains dep then
    Except.ok (updF st.1 dep (st.1 dep ++ [i]), updF st.2 i (st.2 i + 1))
  else
    Except.error ("Invalid dependency: " ++ toString dep ++
      " referenced by " ++ toString i)

/-- Lines 27-35: build `id_map`-membership-checked adjacency list `g` and
indegree map, raising on the first dependency that is not a node id. -/
def buildGraph (subs : List Node) :
    Except String ((Int → List Int) × (Int → Int)) :=
  subs.foldlM
    (fun st sq => sq.depends_on.foldlM
      (fun st2 dep => addEdge subs st2 sq.id dep) st)
    (fun _ => [], fun _ => (0 : Int))

/-- The dependency edges `(dep, sq.id)` of the node list, in the order
the graph build walks them. -/
def edgesOf (subs : List Node) : List (Int × Int) :=
  subs.bind (fun sq => sq.depends_on.map (fun dep => (dep, sq.id)))

/-- Lines 41-44: process the outgoing edges of a dequeued node, returning
the updated indegree map and the nodes enqueued by this step in order. -/
def kahnStep (g : Int → List Int) (indeg : Int → Int) (nid : Int) :
    (Int → Int) × List Int :=
  (g nid).foldl
    (fun p nei =>
      let d := p.1 nei - 1
      (updF p.1 nei d, if d = 0 then p.2 ++ [nei] else p.2))
    (indeg, [])

/-- Lines 38-44: the `while q` loop, FIFO queue, result accumulated in
dequeue order. -/
def kahnLoop (g : Int → List Int) :
    Nat → (Int → Int) → List Int → List Int → List Int
  | 0, _, _, res => res
  | Nat.succ fuel, indeg, q, res =>
    match q with
    | [] => res
    | nid :: q2 =>
      let st := kahnStep g indeg nid
      kahnLoop g fuel st.1 (q2 ++ st.2) (res ++ [nid])

/-- `topo_sort_subquestions` (agent.py lines 26-47). -/
def topo_sort_subquestions (subs : List Node) : Except String (List Node) :=
  match buildGraph subs with
  | Except.error e => Except.error e
  | Except.ok (g, indeg) =>
    let keys := pyKeys (subs.map Node.id)
    let seeds := keys.filter (fun i => indeg i = 0)
    let resIds := kahnLoop g (subs.length + 1) indeg seeds []
    let result := resIds.filterMap (fun i => idMapGet subs i)
    if result.length = subs.length then Except.ok result
    else Except.error "Cycle detected or missing nodes in dependencies"

/-! ### Argument parsing and alias normalization

`_try_parse_arguments` (agent.py lines 98-133) and
`_map_aliases_to_signature` (lines 136-206).  `json.loads` is an external
library call, passed in as a parameter (`Option.none` models a raised
`JSONDecodeError`). -/

/-- ASCII letters and digits, the class `[a-zA-Z0-9]` of the fence
regex. -/
def isAlnum (c : Char) : Bool :=
  isDigit c || ('a' ≤ c && c ≤ 'z') || ('A' ≤ c && c ≤ 'Z')

/-- `re.sub(r"^```[a-zA-Z0-9]*\n?", "", s)`. -/
def dropFenceHead (s : List Char) : List Char :=
  match s with
  | '`' :: '`' :: '`' :: rest =>
    let r := rest.dropWhile isAlnum
    match r with
    | '\n' :: r2 => r2
    | _ => r
  | _ => s

/-- `re.sub(r"```$", "", s)`: `$` matches at the end of the string or just
before one final newline. -/
def dropFenceTail (s : List Char) : List Char :=
  if ("```".toList).isSuffixOf s then s.take (s.length - 3)
  else if ("```\n".toList).isSuffixOf s then s.take (s.length - 4) ++ ['\n']
  else s

/-- `FinancialAgent._clean_json_str` (agent.py lines 243-251). -/
def clean_json_str (raw : Option String) : String :=
  match raw with
  | Option.none => ""
  | some r =>
    let cleaned := pyStrip r
    let cleaned :=
      if ("```".toList).isPrefixOf cleaned.toList then
        String.mk (dropFenceTail (dropFenceHead cleaned.toList))
      else cleaned
    pyStrip cleaned

/-- The `re.split(r"[,;\n]", s)` / `split("=", 1)` key-value fallback of
lines 121-130. -/
def kvFallback (s : String) : List (String × PyVal) :=
  let parts := (s.toList.splitOnP (fun c => c == ',' || c == ';' || c == '\n')).map
    String.mk
  parts.foldl
    (fun out p =>
      if strContains p "=" then
        match p.splitOn "=" with
        | k :: rest =>
          pySet out (pyStrip k) (PyVal.str (pyStrip (String.intercalate "=" rest)))
        | [] => out
      else out)
    []

/-- `_try_parse_arguments` (agent.py lines 98-133), with `json.loads`
passed in. -/
def try_parse_arguments (jsonLoads : String → Option PyVal) (blob : PyVal) :
    List (String × PyVal) :=
  match blob with
  | PyVal.dict d => d
  | b =>
    if !b.truthy then []
    else
      match b with
      | PyVal.str s0 =>
        let s1 := pyStrip s0
        let s2 :=
          if ("```".toList).isPrefixOf s1.toList then
            pyStrip (String.mk (dropFenceTail (dropFenceHead s1.toList)))
          else s1
        match jsonLoads s2 with
        | some (PyVal.dict d) => d
        | some _ => []
        | Option.none => kvFallback s2
      | _ => []

/-- The fixed alias table of lines 149-178, in source order. -/
def alias_map : List (String × String) :=
  [("ticker_symbol", "ticker"), ("stock_ticker", "ticker"),
   ("stock_symbol", "ticker"), ("symbol", "ticker"), ("ticker", "ticker"),
   ("company_name", "company_name"), ("company", "company_name"),
   ("name", "company_name"),
   ("country", "country"), ("country_code", "country_code"),
   ("country_name", "country"),
   ("indicator", "indicator"), ("metric", "indicator"),
   ("query", "query"), ("q", "query"),
   ("start_date", "start_date"), ("end_date", "end_date"),
   ("date", "date"), ("period", "period"), ("exchange", "exchange"),
   ("from_currency", "from_currency"), ("to_currency", "to_currency"),
   ("amount", "amount")]

/-- The `for p in param_names: ... else: for alias_k, target ...` fallback
of lines 192-202: first the case-insensitive parameter match, then the
first alias whose key matches case-insensitively and whose target is
declared. -/
def fuzzyElse (m : List (String × PyVal)) (lower : String) (v : PyVal)
    (params : List String) : List (String × PyVal) :=
  match params.find? (fun p2 => pyLower p2 == lower) with
  | some p2 => pySet m p2 v
  | Option.none =>
    match alias_map.find? (fun a => pyLower a.1 == lower && params.contains a.2) with
    | some a => pySet m a.2 v
    | Option.none => m

/-- The two normalization passes of `_map_aliases_to_signature`
(agent.py lines 179-202) over the declared parameter names of the target
callable: direct key matches first, then alias/fuzzy resolution for the
remaining keys.  The final single-parameter fallback (lines 203-205) lives
in `map_aliases_to_signature` below; its `next(iter(args.values()))`
raises `StopIteration` when `args` is empty, which the caller catches
(lines 504-508). -/
def aliasPasses (args : List (String × PyVal)) (params : List String) :
    List (String × PyVal) :=
  let mapped1 := args.foldl
    (fun m p => if params.contains p.1 then pySet m p.1 p.2 else m) []
  args.foldl
    (fun m p =>
      if m.any (fun x => x.1 == p.1) then m
      else
        let lower := pyLower p.1
        match alias_map.find? (fun a => a.1 == lower) with
        | some a =>
          if params.contains a.2 then pySet m a.2 p.2
          else fuzzyElse m lower p.2 params
        | Option.none => fuzzyElse m lower p.2 params)
    mapped1

/-- `_map_aliases_to_signature` (agent.py lines 136-206): the two passes
above, then the single-parameter fallback. -/
def map_aliases_to_signature (args : List (String × PyVal))
    (params : List String) : Except String (List (String × PyVal)) :=
  let mapped2 := aliasPasses args params
  if mapped2.isEmpty && params.length == 1 then
    match args, params with
    | [], _ => Except.error "StopIteration"
    | (_, v) :: _, p0 :: _ => Except.ok (pySet mapped2 p0 v)
    | _, [] => Except.ok mapped2
  else Except.ok mapped2

/-! ### Tool selection

`FinancialAgent._search_tools` (agent.py lines 284-399).  Distinct
registered tools are distinct function objects, so `func not in tools`
membership coincides with tool-name membership; tools are therefore
represented by their registered names throughout.  The similarity index
(`self.tool_index`, an external FAISS index) is a parameter:
`Option.none` models an unavailable index (line 287), otherwise the
function returns the `tool_name` metadata of the `k=4` hits in rank
order. -/

/-- A registry entry: `ToolMeta` of `tool_registry.py` restricted to what
the agent reads — the unique registered name and the declared parameter
names of the callable, in declaration order. -/
structure ToolMeta where
  name : String
  params : List String

/-- `registry.get(name)` (tool_registry.py lines 73-74). -/
def regGet (registry : List ToolMeta) (name : String) : Option ToolMeta :=
  registry.find? (fun t => t.name == name)

/-- `any(word in q for word in words)`. -/
def inAny (q : String) (words : List String) : Bool :=
  words.any (fun w => strContains q w)

/-- The fifteen keyword rules of lines 302-397, in source order: the
condition on the lowercased resolved text, and the registry name whose
function is inserted at the front on a hit. -/
def keywordRules : List ((String → Bool) × String) :=
  [(fun q => strContains q "mã cổ phiếu" || strContains q "ticker" ||
      strContains q "symbol" || strContains q "mã chứng khoán",
    "get_stock_symbol"),
   (fun q => strContains q "ngành" || strContains q "sector" ||
      strContains q "industry" || strContains q "lĩnh vực" ||
      strContains q "thuộc ngành",
    "get_sector_mapping"),
   (fun q => inAny q ["lạm phát", "inflation", "cpi", "gdp", "thất nghiệp",
      "unemployment", "lãi suất", "interest rate", "vĩ mô", "macro",
      "kinh tế vĩ mô"],
    "get_macro_data"),
   (fun q => strContains q "sàn" || strContains q "exchange" ||
      (strContains q "hose" || strContains q "hnx" || strContains q "upcom"),
    "get_exchange_info"),
   (fun q => inAny q ["tỷ giá", "exchange rate", "usd", "vnd", "currency",
      "đô la", "đồng"],
    "get_currency_rate"),
   (fun q => inAny q ["doanh thu", "revenue", "lợi nhuận", "profit",
      "earnings", "income statement", "kết quả kinh doanh", "ebitda",
      "net income"],
    "get_income_statement"),
   (fun q => inAny q ["vốn chủ", "equity", "tài sản", "assets", "nợ",
      "debt", "liabilities", "bảng cân đối", "balance sheet",
      "shareholders equity", "total assets"],
    "get_balance_sheet"),
   (fun q => inAny q ["dòng tiền", "cash flow", "operating cash",
      "free cash flow", "fcf", "investing cash", "financing cash"],
    "analyze_cashflow"),
   (fun q => inAny q ["roe", "roa", "pe", "p/e", "pb", "p/b", "eps",
      "tỷ số", "chỉ số tài chính", "tỷ lệ", "margin", "biên lợi nhuận"],
    "calculate_ratios"),
   (fun q => inAny q ["định giá", "valuation", "fair value",
      "giá trị hợp lý", "dcf", "ddm", "peg"],
    "estimate_fair_value"),
   (fun q => inAny q ["rsi", "macd", "ma", "moving average", "bollinger",
      "technical", "chỉ báo kỹ thuật", "đường trung bình"],
    "get_technical_indicators"),
   (fun q => inAny q ["biểu đồ", "chart", "graph", "vẽ", "draw", "plot",
      "visualize", "biến động giá", "price movement", "price chart",
      "lịch sử giá"],
    "generate_stock_price_chart"),
   (fun q => inAny q ["giá", "price", "stock price", "giá cổ phiếu",
      "thị giá"],
    "get_stock_price"),
   (fun q => strContains q "thông tin cơ bản" || strContains q "fundamental" ||
      strContains q "profile",
    "get_fundamentals"),
   (fun q => inAny q ["risk", "volatility", "beta", "sharpe", "sortino",
      "drawdown", "var", "rủi ro", "biến động"],
    "get_risk_metrics")]

/-- The semantic candidates: for each similarity hit, append the
registered function when the name resolves (lines 289-295). -/
def semanticTools (registry : List ToolMeta) (semIdx : Option (String → List String))
    (resolved : String) : List String :=
  match semIdx with
  | Option.none => []
  | some f =>
    (f resolved).foldl
      (fun acc nm =>
        match regGet registry nm with
        | some meta => acc ++ [meta.name]
        | Option.none => acc)
      []

/-- One keyword rule applied to the accumulated list: on a hit whose tool
is registered and not already present, insert at the front
(lines 302-397). -/
def applyRule (registry : List ToolMeta) (q : String) (tools : List String)
    (rule : (String → Bool) × String) : List String :=
  if rule.1 q then
    match regGet registry rule.2 with
    | some meta => if tools.contains meta.name then tools else meta.name :: tools
    | Option.none => tools
  else tools

/-- `FinancialAgent._search_tools` (agent.py lines 284-399). -/
def search_tools (registry : List ToolMeta) (semIdx : Option (String → List String))
    (resolved : String) : List String :=
  let tools0 := semanticTools registry semIdx resolved
  let q := pyLower resolved
  keywordRules.foldl (applyRule registry q) tools0

/-! ### The orchestration run

`FinancialAgent.answer` (agent.py lines 433-606).  The external
collaborators are parameters gathered in `Env`: the oracle
(`self.gemini.generate`, one call site per constructor of `OCall`; prompt
formatting, wall-clock timestamps and conversation context are absorbed
into the call-site arguments), the semantic index, `json.loads`, and the
behavior of each registered tool.  Decomposition
(`generate_subquestions_from_query`, an oracle call with JSON-parse
fallback producing the node list) is likewise external: `answer` takes the
produced node list `subs_raw` directly.  The tool callback is `None`
(its default) and is omitted.  A list of `(tool name, normalized
arguments)` pairs traces every tool invocation of the run. -/

/-- The oracle call sites inside one run. -/
inductive OCall where
  | subq (id : Int) (resolved : String) (deps : List AnsRec)
      (toolNames : List String)
  | plain (id : Int) (resolved : String) (deps : List AnsRec)
  | followup (id : Int) (resolved : String) (tool : String)
      (extracted : List (String × PyVal))
  | final (query : String) (records : List AnsRec)

/-- Oracle output, the dict `{text, function_call}` of the wrapper
contract (§6): `text` a string or `None`, `function_call` an arbitrary
value (`PyVal.none` when absent). -/
structure GenOut where
  text : Option String
  function_call : PyVal

/-- The external world of one run. -/
structure Env where
  registry : List ToolMeta
  toolImpl : String → List (String × PyVal) → Except String PyVal
  oracle : OCall → GenOut
  semIdx : Option (String → List String)
  jsonLoads : String → Option PyVal

/-- Truthiness of `raw_text` (`None` and the empty string are falsy). -/
def textTruthy : Option String → Bool
  | some s => !s.isEmpty
  | Option.none => false

/-- `out.get("text") or dflt`. -/
def textOr (t : Option String) (dflt : String) : String :=
  match t with
  | some s => if s.isEmpty then dflt else s
  | Option.none => dflt

/-- `answered_by_id[sq_id] = ans_obj`: insert or replace in place. -/
def setAns (m : List (Int × AnsRec)) (i : Int) (r : AnsRec) :
    List (Int × AnsRec) :=
  if m.any (fun p => p.1 == i) then
    m.map (fun p => if p.1 == i then (i, r) else p)
  else m ++ [(i, r)]

/-- Mutable state of the loop over ordered nodes: `answered_by_id` plus
the instrumentation trace of attempted tool invocations. -/
structure RunState where
  answered : List (Int × AnsRec)
  trace : List (String × List (String × PyVal))

/-- Lines 470-485: when the oracle returned no `function_call` but some
text, try to parse an embedded function-call directive out of the cleaned
text.  A successful `json.loads` to a dict containing `"function_call"`
installs that value; any other outcome (parse failure — the `except`
branch re-parses the same string and fails again — or a dict without the
key, or a non-dict) leaves `fc` unchanged. -/
def detectEmbeddedFc (jsonLoads : String → Option PyVal) (fc : PyVal)
    (raw_text : Option String) : PyVal :=
  if !fc.truthy && textTruthy raw_text then
    match jsonLoads (clean_json_str raw_text) with
    | some (PyVal.dict d) =>
      if d.any (fun p => p.1 == "function_call") then pyGet d "function_call"
      else fc
    | _ => fc
  else fc

/-- Lines 497-501: the registry entry for a truthy string `fname`, else
`None`; the chosen tool is its registered function, falling back to the
first selected tool (`tools` is nonempty on this path), identified by
name (`meta.name` and `func.__name__` agree for every registration in
`tool_registry.py`). -/
def chosenToolName (env : Env) (tools : List String) (fname : PyVal) : String :=
  let meta :=
    match fname with
    | PyVal.str s => if s.isEmpty then Option.none else regGet env.registry s
    | _ => Option.none
  match meta with
  | some m => m.name
  | Option.none => tools.headD "unknown"

/-- Lines 503-508: normalize the raw arguments against the chosen
callable's declared parameters, falling back to the raw arguments if
normalization raises. -/
def normalizedArgs (env : Env) (chosen_name : String)
    (fargs : List (String × PyVal)) : List (String × PyVal) :=
  let params := ((regGet env.registry chosen_name).map ToolMeta.params).getD []
  match map_aliases_to_signature fargs params with
  | Except.ok m => m
  | Except.error _ => fargs

/-- Lines 488-557: execute a truthy function-call directive `fc` against
the selected `tools` (nonempty here).  Returns the node's record and the
tool invocation to trace, or the uncaught exception. -/
def execFunctionCall (env : Env) (sq_id : Int) (resolved : String)
    (tools : List String) (fc : PyVal) :
    Except String (AnsRec × List (String × List (String × PyVal))) :=
  match fc with
  | PyVal.dict fd =>
    let fname := pyGet fd "name"
    let fargs_raw := pyOr (pyGet fd "arguments") (PyVal.dict [])
    let fargsE : Except String (List (String × PyVal)) :=
      match fargs_raw with
      | PyVal.str s => Except.ok (try_parse_arguments env.jsonLoads (PyVal.str s))
      | PyVal.dict d => Except.ok d
      | _ => Except.error "TypeError: cannot convert arguments to dict"
    match fargsE with
    | Except.error e => Except.error e
    | Except.ok fargs =>
      let chosen_name := chosenToolName env tools fname
      let mapped_args := normalizedArgs env chosen_name fargs
      match env.toolImpl chosen_name mapped_args with
      | Except.ok result =>
        let extracted :=
          match result with
          | PyVal.dict d => d
          | v => [("result", v)]
        let out2 := env.oracle (OCall.followup sq_id resolved chosen_name extracted)
        let final_text := textOr out2.text (pyStr (PyVal.dict extracted))
        Except.ok (⟨sq_id, PyVal.str final_text, [chosen_name], extracted⟩,
          [(chosen_name, mapped_args)])
      | Except.error e =>
        Except.ok
          (⟨sq_id, PyVal.str ("ERROR executing tool " ++ chosen_name ++ ": " ++ e),
            [chosen_name], []⟩,
          [(chosen_name, mapped_args)])
  | _ => Except.error "AttributeError: function_call is not a dict"

/-- Lines 443-451: the record of a node skipped for missing placeholders —
`status = skipped` is carried by the `SKIP:` marker, the text embeds the
f-string rendering of the missing key list, and no tool is recorded. -/
def skipRecord (sq_id : Int) (missing : List String) : AnsRec :=
  ⟨sq_id, PyVal.str ("SKIP: missing placeholders " ++ pyReprStrList missing),
   [], []⟩

/-- One iteration of the `for sq in ordered` loop (lines 439-566). -/
def processNode (env : Env) (sq : Node) (st : RunState) :
    Except String RunState :=
  let sq_id := sq.id
  let deps := sq.depends_on.filterMap (fun d => lookupAns st.answered d)
  match resolve_placeholders sq.question st.answered with
  | Except.error e => Except.error e
  | Except.ok (resolved, missing) =>
    if !missing.isEmpty then
      Except.ok
        { st with answered := setAns st.answered sq_id (skipRecord sq_id missing) }
    else
      let tools := search_tools env.registry env.semIdx resolved
      if tools.isEmpty then
        let out := env.oracle (OCall.plain sq_id resolved deps)
        Except.ok
          { st with
            answered := setAns st.answered sq_id
              ⟨sq_id, PyVal.str (textOr out.text ""), [], []⟩ }
      else
        let out := env.oracle (OCall.subq sq_id resolved deps tools)
        let raw_text := out.text
        let fc := detectEmbeddedFc env.jsonLoads out.function_call raw_text
        if fc.truthy then
          match execFunctionCall env sq_id resolved tools fc with
          | Except.error e => Except.error e
          | Except.ok (record, tr) =>
            Except.ok ⟨setAns st.answered sq_id record, st.trace ++ tr⟩
        else
          let ansv : PyVal :=
            match raw_text with
            | some t => PyVal.str t
            | Option.none => PyVal.none
          Except.ok
            { st with answered := setAns st.answered sq_id ⟨sq_id, ansv, [], []⟩ }

/-- The loop over the scheduler's output. -/
def runLoop (env : Env) (nodes : List Node) (st : RunState) :
    Except String RunState :=
  match nodes with
  | [] => Except.ok st
  | sq :: rest =>
    match processNode env sq st with
    | Except.error e => Except.error e
    | Except.ok st2 => runLoop env rest st2

/-- One conversation exchange as appended at lines 591-596 (`timestamp`
is wall-clock and omitted; no claim concerns it). -/
structure Exchange where
  user_query : String
  assistant_response : String
  answered_subquestions : List AnsRec

/-- Lines 598-600: `if len(history) > 10: history = history[-10:]`. -/
def trimHistory (hist : List Exchange) : List Exchange :=
  if 10 < hist.length then hist.drop (hist.length - 10) else hist

/-- The value returned by `FinancialAgent.answer` (lines 602-606),
plus the conversation history as left in `self.conversation_history`. -/
structure AnswerResult where
  report : String
  answered_subquestions : List AnsRec
  subquestions : List Node
  history : List Exchange

/-- `FinancialAgent.answer` (agent.py lines 433-606) on the decomposed
node list `subs_raw` and the conversation history `hist` at entry.  The
second component is the trace of attempted tool invocations; an uncaught
exception aborts the run before any tool beyond those already traced runs
(the only pre-loop failure, `topo_sort_subquestions`, leaves the trace
empty). -/
def answer (env : Env) (query : String) (subs_raw : List Node)
    (hist : List Exchange) :
    Except String AnswerResult × List (String × List (String × PyVal)) :=
  match topo_sort_subquestions subs_raw with
  | Except.error e => (Except.error e, [])
  | Except.ok ordered =>
    match runLoop env ordered ⟨[], []⟩ with
    | Except.error e => (Except.error e, [])
    | Except.ok st =>
      let records := st.answered.map (fun p => p.2)
      let final_out := env.oracle (OCall.final query records)
      let final_text := textOr final_out.text "No final text"
      let hist2 := trimHistory (hist ++ [⟨query, final_text, records⟩])
      (Except.ok ⟨final_text, records, subs_raw, hist2⟩, st.trace)

/-! ### Concrete instances used by the claims below -/

/-- An answer record for id 1 carrying `extracted_data={"ticker":"FPT"}`,
as in testable property 3 of the spec. -/
def recQ1 : AnsRec :=
  ⟨1, PyVal.str "FPT is listed on HOSE", [], [("ticker", PyVal.str "FPT")]⟩

/-- The record exhibiting C10's failure: a falsy value stored under the
exact (uppercase) field name, with an answer text the claimed fall-through
would extract instead. -/
def recC10 : AnsRec :=
  ⟨1, PyVal.str "FALLBACK", [], [("TICKER", PyVal.str "")]⟩

/-- A minimal world: no registered tools, no semantic index, an oracle
that always answers `"ok"` with no function call, a JSON parser that
always fails. -/
def demoEnv : Env :=
  ⟨[], fun _ _ => Except.error "no tools",
   fun _ => ⟨some "ok", PyVal.none⟩, Option.none, fun _ => Option.none⟩

/-- A past exchange. -/
def demoEx : Exchange :=
  ⟨"q0", "a0", []⟩

/-- A full conversation store of 10 exchanges. -/
def demoHist : List Exchange :=
  List.replicate 10 demoEx

/-- A single dependency-free node. -/
def demoNode1 : Node :=
  ⟨1, "hello", []⟩

/-- The result of the one-node run of `demoEnv` against the full store. -/
def demoRes : AnswerResult :=
  ((answer demoEnv "q" [demoNode1] demoHist).1.toOption).getD ⟨"", [], [], []⟩

/-- A function-call directive naming the price tool with one argument. -/
def demoFd : List (String × PyVal) :=
  [("name", PyVal.str "get_stock_price"),
   ("arguments", PyVal.dict [("ticker", PyVal.str "FPT")])]

/-- A world with one registered tool that always raises, and an oracle
that directs every sub-question to it. -/
def demoToolEnv : Env :=
  ⟨[⟨"get_stock_price", ["ticker"]⟩],
   fun _ _ => Except.error "boom",
   fun c =>
     match c with
     | OCall.subq _ _ _ _ => ⟨Option.none, PyVal.dict demoFd⟩
     | _ => ⟨some "done", PyVal.none⟩,
   Option.none, fun _ => Option.none⟩

/-- Spec-side collection step for the tool selector (claim C8): a rule
that fires, is registered, and whose tool is not already among the
semantic candidates `base` or the previously collected hits appends its
tool to the collected list. -/
def collectRule (registry : List ToolMeta) (q : String) (base : List String)
    (acc : List String) (r : (String → Bool) × String) : List String :=
  if r.1 q then
    match regGet registry r.2 with
    | some meta =>
      if base.contains meta.name || acc.contains meta.name then acc
      else acc ++ [meta.name]
    | Option.none => acc
  else acc

/-- Spec-side merge description for the tool selector (claim C8): the
new keyword hits collected over the rules in evaluation order. -/
def ruleHitsSpec (registry : List ToolMeta) (q : String) (base : List String) :
    List String :=
  keywordRules.foldl (collectRule registry q base) []

/-- Registry for the C8 counterexample: the price tool plus a generic
search tool. -/
def demoSemRegistry : List ToolMeta :=
  [⟨"get_stock_price", ["ticker"]⟩, ⟨"google_search", ["query"]⟩]

/-- A semantic index whose ranked hits are `google_search` first, then
`get_stock_price`. -/
def demoSemIdx : Option (String → List String) :=
  some (fun _ => ["google_search", "get_stock_price"])

/-! ### Proof infrastructure for the scheduler (C1, C2) -/

/-- Number of edges into `x`. -/
def intoCount (E : List (Int × Int)) (x : Int) : Nat :=
  E.countP (fun e => e.2 == x)

/-- Number of edges into `x` whose source is in `res`. -/
def consumedCount (E : List (Int × Int)) (res : List Int) (x : Int) : Nat :=
  E.countP (fun e => res.contains e.1 && e.2 == x)

/-- Every element of the list is preceded by all of its edge sources. -/
def PrefixClosed (g : Int → List Int) (res : List Int) : Prop :=
  ∀ (pre : List Int) (x : Int) (post : List Int), res = pre ++ x :: post →
    ∀ d, x ∈ g d → d ∈ pre

/-- The relationship between a successfully built graph and the node
list: adjacency counts match the edge list, and every edge endpoint is a
key. -/
structure GoodGraph (subs : List Node) (g : Int → List Int)
    (keys : List Int) : Prop where
  hcount : ∀ d x, (g d).count x =
    (edgesOf subs).countP (fun e => e.1 == d && e.2 == x)
  hsrc : ∀ e ∈ edgesOf subs, e.1 ∈ keys
  htgt : ∀ e ∈ edgesOf subs, e.2 ∈ keys
  hkeys_nodup : keys.Nodup

/-- The loop invariant of Kahn's algorithm as implemented: result and
queue are disjoint, duplicate-free key lists; the indegree map counts the
unconsumed in-edges; a key is in result-or-queue exactly when its
indegree has dropped to zero; queued nodes have all their edge sources
already in the result; and the result is closed under edge sources. -/
structure KahnInv (subs : List Node) (g : Int → List Int) (keys : List Int)
    (indeg : Int → Int) (q res : List Int) : Prop where
  res_nodup : res.Nodup
  q_nodup : q.Nodup
  disj : ∀ x ∈ q, x ∉ res
  res_keys : ∀ x ∈ res, x ∈ keys
  q_keys : ∀ x ∈ q, x ∈ keys
  indeg_eq : ∀ x, indeg x = (intoCount (edgesOf subs) x : Int) -
    (consumedCount (edgesOf subs) res x : Int)
  mem_iff : ∀ x ∈ keys, (x ∈ res ∨ x ∈ q) ↔ indeg x ≤ 0
  ready : ∀ x ∈ q, ∀ d, x ∈ g d → d ∈ res
  closed : PrefixClosed g res

/-- The dependency edge relation of a node list: `edgeRel subs d x` holds
when some node of `subs` with id `x` lists `d` in its `depends_on`, i.e.
exactly when the built graph has an edge `d → x`.  A dependency cycle is an
`a` with `Relation.TransGen (edgeRel subs) a a`. -/
def edgeRel (subs : List Node) (d x : Int) : Prop :=
  ∃ sq ∈ subs, sq.id = x ∧ d ∈ sq.depends_on

/-- C1's counterexample input: node 1 depends on node 3, nodes 2 and 3
depend on nothing, so nodes 1 and 2 are unconstrained relative to each
other in both directions. -/
def cexSubs : List Node :=
  [⟨1, "a", [3]⟩, ⟨2, "b", []⟩, ⟨3, "c", []⟩]

/-- A two-node dependency cycle 1 → 2 → 1, the spec's own example. -/
def cycSubs : List Node :=
  [⟨1, "a", [2]⟩, ⟨2, "b", [1]⟩]

/-! ## Theorems

### Placeholder resolution (C3, C4, C10) -/

theorem matchTok_spec {s full : List Char} {key : String} {rest : List Char}
    (h : matchTok s = some (full, key, rest)) :
    s = full ++ rest ∧ 4 ≤ full.length := by
  unfold matchTok at h
  split at h
  next tl =>
    simp only [] at h
    split at h
    · simp at h
    · split at h
      next r3 heq2 =>
        injection h with h4
        injection h4 with hfull h5
        injection h5 with hkey hrest
        subst hfull hrest
        refine ⟨?_, by simp; omega⟩
        have e1 : tl.takeWhile pySpace ++ tl.dropWhile pySpace = tl :=
          List.takeWhile_append_dropWhile _ _
        have e2 : (tl.dropWhile pySpace).takeWhile isKeyChar ++
            (tl.dropWhile pySpace).dropWhile isKeyChar = tl.dropWhile pySpace :=
          List.takeWhile_append_dropWhile _ _
        have e3 : ((tl.dropWhile pySpace).dropWhile isKeyChar).takeWhile pySpace ++
            ((tl.dropWhile pySpace).dropWhile isKeyChar).dropWhile pySpace =
            (tl.dropWhile pySpace).dropWhile isKeyChar :=
          List.takeWhile_append_dropWhile _ _
        simp only [List.cons_append, List.append_assoc, List.nil_append,
          List.cons.injEq, true_and]
        rw [← heq2, e3, e2, e1]
      · exact absurd h (by simp)
  next => simp at h

theorem matchTok_rest_lt {s full : List Char} {key : String} {rest : List Char}
    (h : matchTok s = some (full, key, rest)) : rest.length < s.length := by
  obtain ⟨hs, hlen⟩ := matchTok_spec h
  subst hs
  simp
  omega

theorem splitChunksF_succ (fuel : Nat) (s : List Char) :
    splitChunksF (fuel + 1) s =
      match matchTok s with
      | some (full, key, rest) => Chunk.tok full key :: splitChunksF fuel rest
      | Option.none =>
        match s with
        | [] => []
        | c :: cs => Chunk.lit c :: splitChunksF fuel cs := rfl

theorem splitChunksF_join (fuel : Nat) :
    ∀ s : List Char, s.length ≤ fuel → joinChunks (splitChunksF fuel s) = s := by
  induction fuel with
  | zero =>
    intro s h
    have : s = [] := List.eq_nil_of_length_eq_zero (Nat.le_zero.mp h)
    subst this
    rfl
  | succ fuel ih =>
    intro s h
    cases hm : matchTok s with
    | some p =>
      obtain ⟨full, key, rest⟩ := p
      obtain ⟨hs, hlen⟩ := matchTok_spec hm
      have hr : rest.length ≤ fuel := by
        subst hs
        rw [List.length_append] at h
        omega
      calc joinChunks (splitChunksF (fuel + 1) s)
          = full ++ joinChunks (splitChunksF fuel rest) := by
            rw [splitChunksF_succ, hm]
            simp [joinChunks, Chunk.text]
        _ = full ++ rest := by rw [ih rest hr]
        _ = s := hs.symm
    | none =>
      cases s with
      | nil => rfl
      | cons c cs =>
        have hc : cs.length ≤ fuel := by
          simp at h
          omega
        rw [splitChunksF_succ, hm]
        simp [joinChunks, Chunk.text] at *
        exact ih cs hc

/-- The scan is lossless: the chunks concatenate back to the input, so in
particular the fuel `s.length` of `splitChunks` never truncates the
scan. -/
theorem splitChunks_join (s : List Char) : joinChunks (splitChunks s) = s :=
  splitChunksF_join s.length s le_rfl

theorem replKey_unresolvable {store : List (Int × AnsRec)} {full : List Char}
    {key : String}
    (h : ∀ (f : String) (n : Nat), parseKey key = some (f, n) →
      lookupAns store (n : Int) = Option.none) :
    replKey store full key = Except.ok (full, [key]) := by
  unfold replKey
  cases hp : parseKey key with
  | none => rfl
  | some fn =>
    obtain ⟨f, n⟩ := fn
    simp [h f n hp]

theorem resolveChunks_unresolvable_mem {store : List (Int × AnsRec)}
    {cs : List Chunk} {full : List Char} {key : String} {o : List Char}
    {m : List String}
    (hmem : Chunk.tok full key ∈ cs)
    (h : ∀ (f : String) (n : Nat), parseKey key = some (f, n) →
      lookupAns store (n : Int) = Option.none)
    (hok : resolveChunks store cs = Except.ok (o, m)) :
    key ∈ m ∧ full <:+: o := by
  induction cs generalizing o m with
  | nil => simp at hmem
  | cons c rest ih =>
    unfold resolveChunks at hok
    cases hc : applyChunk store c with
    | error e => rw [hc] at hok; exact absurd hok (by simp)
    | ok p1 =>
      obtain ⟨o1, m1⟩ := p1
      rw [hc] at hok
      cases hr : resolveChunks store rest with
      | error e => rw [hr] at hok; exact absurd hok (by simp)
      | ok p2 =>
        obtain ⟨o2, m2⟩ := p2
        rw [hr] at hok
        simp only [Except.ok.injEq, Prod.mk.injEq] at hok
        obtain ⟨ho, hm⟩ := hok
        subst ho hm
        rcases List.mem_cons.mp hmem with hcur | hrest
        · subst hcur
          have : applyChunk store (Chunk.tok full key) = Except.ok (full, [key]) :=
            replKey_unresolvable h
          rw [this] at hc
          injection hc with hc
          injection hc with h1 h2
          subst h1 h2
          exact ⟨by simp, ⟨[], o2, by simp⟩⟩
        · obtain ⟨hk, hi⟩ := ih hrest hr
          refine ⟨by simp [hk], ?_⟩
          obtain ⟨p, s, hps⟩ := hi
          exact ⟨o1 ++ p, s, by simp [← hps]⟩

/-- C3: placeholder round-trip.  With a record for id 1 whose
`extracted_data` maps `ticker` to `FPT`, resolving
`"Price of {{TICKER_FROM_Q1}}"` yields `"Price of FPT"` with no missing
keys; with no record for id 1 the text is returned unchanged with
`missing = ["TICKER_FROM_Q1"]`; and in general, every scanned placeholder
token whose id has no answer record is left unsubstituted in the output
(its full matched text survives verbatim) and its key is recorded in the
missing list, whenever the call returns. -/
theorem claim_C3_placeholder_roundtrip :
    resolve_placeholders "Price of {{TICKER_FROM_Q1}}" [(1, recQ1)] =
      Except.ok ("Price of FPT", []) ∧
    resolve_placeholders "Price of {{TICKER_FROM_Q1}}" [] =
      Except.ok ("Price of {{TICKER_FROM_Q1}}", ["TICKER_FROM_Q1"]) ∧
    ∀ (text : String) (store : List (Int × AnsRec)) (full : List Char)
      (key : String) (o : String) (m : List String),
      Chunk.tok full key ∈ splitChunks text.toList →
      (∀ (f : String) (n : Nat), parseKey key = some (f, n) →
        lookupAns store (n : Int) = Option.none) →
      resolve_placeholders text store = Except.ok (o, m) →
      key ∈ m ∧ full <:+: o.toList := by
  refine ⟨by rfl, by rfl, ?_⟩
  intro text store full key o m hmem h hok
  unfold resolve_placeholders at hok
  cases hr : resolveChunks store (splitChunks text.toList) with
  | error e => rw [hr] at hok; exact absurd hok (by simp)
  | ok p =>
    obtain ⟨o0, m0⟩ := p
    rw [hr] at hok
    simp only [Except.ok.injEq, Prod.mk.injEq] at hok
    obtain ⟨ho, hm⟩ := hok
    subst hm
    obtain ⟨hk, hi⟩ := resolveChunks_unresolvable_mem hmem h hr
    subst ho
    exact ⟨hk, hi⟩

/-- Witness for C3's universal part, at the concrete text
`"see {{VAL_FROM_Q7}}"` against an empty record store. -/
theorem claim_C3_placeholder_roundtrip_witness :
    "VAL_FROM_Q7" ∈ ["VAL_FROM_Q7"] ∧
      "{{VAL_FROM_Q7}}".toList <:+: "see {{VAL_FROM_Q7}}".toList :=
  claim_C3_placeholder_roundtrip.2.2 "see {{VAL_FROM_Q7}}" []
    ("{{VAL_FROM_Q7}}".toList) "VAL_FROM_Q7" "see {{VAL_FROM_Q7}}"
    ["VAL_FROM_Q7"] (by decide) (fun f n _ => rfl) (by rfl)

/-- C4: the claim asserts the extraction chain never fails on any string
answer text, in particular when the last colon is followed by nothing.
The code instead evaluates `parts[-1].strip().split()[0]` on an empty
token list and raises an uncaught `IndexError`: with a record for id 1
whose answer text is `"Total:"`, resolving `"{{PRICE_FROM_Q1}}"` raises
instead of recording the token as missing. -/
theorem claim_C4_heuristic_indexerror :
    resolve_placeholders "{{PRICE_FROM_Q1}}"
      [(1, ⟨1, PyVal.str "Total:", [], []⟩)] =
      Except.error "IndexError: list index out of range" ∧
    strHeuristic "Total:" = Except.error "IndexError: list index out of range" := by
  exact ⟨by rfl, by rfl⟩

/-- C10 counterexample: the claim says a falsy `extracted_data` entry is
always skipped, with resolution falling through to the answer-text
heuristic.  But the `or` chain only guards the lowercase lookup: with
`extracted_data = {"TICKER": ""}` (exact-name hit, falsy), the falsy empty
string IS substituted — the output is `""`, not the heuristic's
`"FALLBACK"` — and nothing is recorded missing. -/
theorem claim_C10_counterexample :
    resolve_placeholders "{{TICKER_FROM_Q1}}" [(1, recC10)] =
      Except.ok ("", []) ∧
    strHeuristic "FALLBACK" = Except.ok (PyVal.str "FALLBACK") := by
  exact ⟨by rfl, by rfl⟩

/-- C10 amended: only a falsy result of the lowercased-key lookup is
skipped by the `or`, and resolution then uses whatever
`ed.get(field_name)` returns: if the exact-name lookup yields `None`
(key absent or stored `None`), resolution falls through to the
answer-text branches; but any non-`None` exact-name value — falsy or not —
is substituted. -/
theorem claim_C10_amended (ed : List (String × PyVal)) (field : String)
    (ans : PyVal) (tools : List String) (i : Int)
    (hlow : (pyGet ed (pyLower field)).truthy = false) :
    (pyGet ed field = PyVal.none →
      answerValue ⟨i, ans, tools, ed⟩ field =
        (match ans with
         | PyVal.dict ad =>
           let v := pyOr (pyGet ad (pyLower field)) (pyGet ad field)
           if v.truthy then Except.ok v else Except.ok PyVal.none
         | PyVal.str s => strHeuristic s
         | _ => Except.ok PyVal.none)) ∧
    (pyGet ed field ≠ PyVal.none →
      answerValue ⟨i, ans, tools, ed⟩ field = Except.ok (pyGet ed field)) := by
  have hchain : pyOr (pyGet ed (pyLower field)) (pyGet ed field) = pyGet ed field := by
    unfold pyOr
    rw [hlow]
    simp
  constructor
  · intro habs
    unfold answerValue
    rw [hchain, habs]
  · intro hne
    unfold answerValue
    rw [hchain]
    cases hv : pyGet ed field with
    | none => exact absurd hv hne
    | str s => rfl
    | int n => rfl
    | dict d => rfl
    | list xs => rfl

/-- Witness for C10's amended statement: with
`extracted_data = {"TICKER": ""}` and field `TICKER`, the exact-name value
`""` (falsy, non-`None`) is extracted as the value. -/
theorem claim_C10_amended_witness :
    answerValue ⟨1, PyVal.str "FALLBACK", [], [("TICKER", PyVal.str "")]⟩
      "TICKER" = Except.ok (pyGet [("TICKER", PyVal.str "")] "TICKER") :=
  (claim_C10_amended [("TICKER", PyVal.str "")] "TICKER"
    (PyVal.str "FALLBACK") [] 1 (by rfl)).2
    (fun h => PyVal.noConfusion h)

/-! ### Argument normalization (C7) -/

/-- C7: alias normalization.  Raw arguments `{"ticker_symbol": "FPT"}`
against a tool declaring the single parameter `ticker` normalize to
`{"ticker": "FPT"}`; and whenever the two normalization passes yield an
empty map, an argument was supplied, and the tool declares exactly one
parameter, the supplied value is bound to that parameter regardless of
its key. -/
theorem claim_C7_alias_normalization :
    map_aliases_to_signature [("ticker_symbol", PyVal.str "FPT")] ["ticker"] =
      Except.ok [("ticker", PyVal.str "FPT")] ∧
    ∀ (k : String) (v : PyVal) (p : String),
      aliasPasses [(k, v)] [p] = [] →
      map_aliases_to_signature [(k, v)] [p] = Except.ok [(p, v)] := by
  refine ⟨by rfl, ?_⟩
  intro k v p h
  unfold map_aliases_to_signature
  rw [h]
  rfl

/-- Witness for C7's universal part: the unrecognized key `foo` against
the single parameter `bar` binds the value to `bar`. -/
theorem claim_C7_alias_normalization_witness :
    map_aliases_to_signature [("foo", PyVal.str "X")] ["bar"] =
      Except.ok [("bar", PyVal.str "X")] :=
  claim_C7_alias_normalization.2 "foo" (PyVal.str "X") "bar" (by rfl)

/-! ### Bounded conversation history (C9) -/

/-- C9: the conversation history never exceeds 10 exchanges after a
completed run, and appending an 11th evicts the oldest, the surviving 10
being the most recent ones in order: the history `answer` leaves behind is
`trimHistory (hist ++ [exchange])`, which has length `min (|hist| + 1) 10`
whenever the store respected the bound at entry, and equals
`hist.drop 1 ++ [exchange]` exactly when the store was full. -/
theorem claim_C9_history_bound (env : Env) (query : String)
    (subs_raw : List Node) (hist : List Exchange) (res : AnswerResult)
    (tr : List (String × List (String × PyVal)))
    (hrun : answer env query subs_raw hist = (Except.ok res, tr))
    (hbound : hist.length ≤ 10) :
    res.history.length ≤ 10 ∧
    (∃ ex : Exchange, res.history = trimHistory (hist ++ [ex]) ∧
      (hist.length = 10 → res.history = hist.drop 1 ++ [ex]) ∧
      (hist.length < 10 → res.history = hist ++ [ex])) := by
  unfold answer at hrun
  split at hrun
  · exact absurd hrun (by simp)
  split at hrun
  · exact absurd hrun (by simp)
  next st heq2 =>
    simp only [Prod.mk.injEq, Except.ok.injEq] at hrun
    obtain ⟨hres, htr⟩ := hrun
    subst hres
    refine ⟨?_, ⟨query, textOr (env.oracle (OCall.final query
        (st.answered.map (fun p => p.2)))).text "No final text",
        st.answered.map (fun p => p.2)⟩, rfl, ?_, ?_⟩
    · unfold trimHistory
      split
      · simp
        omega
      · simp at *
        omega
    · intro h10
      unfold trimHistory
      simp [h10]
      cases hist with
      | nil => simp at h10
      | cons a t => simp
    · intro hlt
      unfold trimHistory
      split
      · simp at *
        omega
      · rfl

/-- Witness for C9 at a full 10-exchange store: a one-node run with no
tools and a trivial oracle appends the new exchange and evicts the oldest
exchange. -/
theorem claim_C9_history_bound_witness :
    demoRes.history.length ≤ 10 ∧
    (∃ ex : Exchange, demoRes.history = trimHistory (demoHist ++ [ex]) ∧
      (demoHist.length = 10 → demoRes.history = demoHist.drop 1 ++ [ex]) ∧
      (demoHist.length < 10 → demoRes.history = demoHist ++ [ex])) :=
  claim_C9_history_bound demoEnv "q" [demoNode1] demoHist demoRes []
    (by rfl) (by decide)

/-! ### Skipped nodes are not fatal (C5) -/

/-- C5: a node whose text has unresolvable placeholders is recorded as
skipped — `SKIP:` marker with the rendered list of missing keys as its
text, no tool recorded — no tool is invoked for it (the trace is
unchanged), and the loop simply continues with the remaining nodes in
order. -/
theorem claim_C5_missing_placeholder_skips (env : Env) (sq : Node)
    (rest : List Node) (st : RunState) (txt : String) (missing : List String)
    (hres : resolve_placeholders sq.question st.answered =
      Except.ok (txt, missing))
    (hne : missing ≠ []) :
    runLoop env (sq :: rest) st =
      runLoop env rest
        ⟨setAns st.answered sq.id (skipRecord sq.id missing), st.trace⟩ ∧
    (skipRecord sq.id missing).used_tools = [] ∧
    (skipRecord sq.id missing).answer =
      PyVal.str ("SKIP: missing placeholders " ++ pyReprStrList missing) := by
  have hstep : processNode env sq st =
      Except.ok ⟨setAns st.answered sq.id (skipRecord sq.id missing), st.trace⟩ := by
    unfold processNode
    rw [hres]
    cases missing with
    | nil => exact absurd rfl hne
    | cons m ms => rfl
  refine ⟨?_, rfl, rfl⟩
  calc runLoop env (sq :: rest) st
      = (match processNode env sq st with
         | Except.error e => Except.error e
         | Except.ok st2 => runLoop env rest st2) := rfl
    _ = runLoop env rest
          ⟨setAns st.answered sq.id (skipRecord sq.id missing), st.trace⟩ := by
        rw [hstep]

/-- Witness for C5: the node `{{X_FROM_Q9}}` against an empty store is
skipped and the one-node run still completes. -/
theorem claim_C5_missing_placeholder_skips_witness :
    runLoop demoEnv [⟨2, "{{X_FROM_Q9}}", []⟩] ⟨[], []⟩ =
      runLoop demoEnv []
        ⟨setAns [] 2 (skipRecord 2 ["X_FROM_Q9"]), []⟩ ∧
    (skipRecord 2 ["X_FROM_Q9"]).used_tools = [] ∧
    (skipRecord 2 ["X_FROM_Q9"]).answer =
      PyVal.str ("SKIP: missing placeholders " ++ pyReprStrList ["X_FROM_Q9"]) :=
  claim_C5_missing_placeholder_skips demoEnv ⟨2, "{{X_FROM_Q9}}", []⟩ [] ⟨[], []⟩
    "{{X_FROM_Q9}}" ["X_FROM_Q9"] (by rfl) (by decide)

/-! ### Tool dispatch and failure isolation (C6) -/

theorem execFunctionCall_error (env : Env) (id : Int) (resolved : String)
    (tools : List String) (fd fargs : List (String × PyVal)) (e : String)
    (hargs : pyOr (pyGet fd "arguments") (PyVal.dict []) = PyVal.dict fargs)
    (himpl : env.toolImpl (chosenToolName env tools (pyGet fd "name"))
      (normalizedArgs env (chosenToolName env tools (pyGet fd "name")) fargs) =
      Except.error e) :
    execFunctionCall env id resolved tools (PyVal.dict fd) =
      Except.ok
        (⟨id, PyVal.str ("ERROR executing tool " ++
            chosenToolName env tools (pyGet fd "name") ++ ": " ++ e),
          [chosenToolName env tools (pyGet fd "name")], []⟩,
         [(chosenToolName env tools (pyGet fd "name"),
           normalizedArgs env (chosenToolName env tools (pyGet fd "name")) fargs)]) := by
  unfold execFunctionCall
  simp only [hargs, himpl]

theorem execFunctionCall_wrap (env : Env) (id : Int) (resolved : String)
    (tools : List String) (fd fargs : List (String × PyVal)) (v : PyVal)
    (hargs : pyOr (pyGet fd "arguments") (PyVal.dict []) = PyVal.dict fargs)
    (himpl : env.toolImpl (chosenToolName env tools (pyGet fd "name"))
      (normalizedArgs env (chosenToolName env tools (pyGet fd "name")) fargs) =
      Except.ok v)
    (hnd : ∀ d, v ≠ PyVal.dict d) :
    execFunctionCall env id resolved tools (PyVal.dict fd) =
      Except.ok
        (⟨id,
          PyVal.str (textOr (env.oracle (OCall.followup id resolved
              (chosenToolName env tools (pyGet fd "name"))
              [("result", v)])).text (pyStr (PyVal.dict [("result", v)]))),
          [chosenToolName env tools (pyGet fd "name")], [("result", v)]⟩,
         [(chosenToolName env tools (pyGet fd "name"),
           normalizedArgs env (chosenToolName env tools (pyGet fd "name")) fargs)]) := by
  unfold execFunctionCall
  simp only [hargs, himpl]

theorem processNode_toolbranch (env : Env) (sq : Node) (st : RunState)
    (txt : String) (out : GenOut) (fd : List (String × PyVal))
    (hres : resolve_placeholders sq.question st.answered = Except.ok (txt, []))
    (htools : search_tools env.registry env.semIdx txt ≠ [])
    (hor : env.oracle (OCall.subq sq.id txt
        (sq.depends_on.filterMap (fun d => lookupAns st.answered d))
        (search_tools env.registry env.semIdx txt)) = out)
    (hfc : detectEmbeddedFc env.jsonLoads out.function_call out.text =
      PyVal.dict fd)
    (hfd : fd ≠ []) :
    processNode env sq st =
      match execFunctionCall env sq.id txt
          (search_tools env.registry env.semIdx txt) (PyVal.dict fd) with
      | Except.error e => Except.error e
      | Except.ok (record, tr) =>
        Except.ok ⟨setAns st.answered sq.id record, st.trace ++ tr⟩ := by
  have hne : (search_tools env.registry env.semIdx txt).isEmpty = false := by
    cases hse : search_tools env.registry env.semIdx txt with
    | nil => exact absurd hse htools
    | cons a l => rfl
  have htr : (PyVal.dict fd).truthy = true := by
    cases fd with
    | nil => exact absurd rfl hfd
    | cons a l => rfl
  unfold processNode
  rw [hres]
  simp only [hne, hor, hfc, htr, List.isEmpty_nil, Bool.not_true,
    Bool.false_eq_true, if_false, Bool.not_false, if_true]

/-- C6: tool dispatch and failure isolation.  (a) If the chosen tool
raises, the node is recorded `errored`: its text preserves the exception
message, `used_tools` still lists the attempted tool, the attempted
invocation is traced, and the loop continues with the remaining nodes.
(b) A non-dict tool return value is wrapped as `{"result": value}` in the
record's `extracted_data`.  (c) Whenever the loop over the scheduled
nodes completes, `answer` returns a final report (the synthesizer's text
or the `"No final text"` placeholder). -/
theorem claim_C6_tool_failure_isolated :
    (∀ (env : Env) (sq : Node) (rest : List Node) (st : RunState)
       (txt : String) (out : GenOut) (fd fargs : List (String × PyVal))
       (e : String),
      resolve_placeholders sq.question st.answered = Except.ok (txt, []) →
      search_tools env.registry env.semIdx txt ≠ [] →
      env.oracle (OCall.subq sq.id txt
        (sq.depends_on.filterMap (fun d => lookupAns st.answered d))
        (search_tools env.registry env.semIdx txt)) = out →
      detectEmbeddedFc env.jsonLoads out.function_call out.text =
        PyVal.dict fd →
      fd ≠ [] →
      pyOr (pyGet fd "arguments") (PyVal.dict []) = PyVal.dict fargs →
      env.toolImpl (chosenToolName env
          (search_tools env.registry env.semIdx txt) (pyGet fd "name"))
        (normalizedArgs env (chosenToolName env
          (search_tools env.registry env.semIdx txt) (pyGet fd "name")) fargs) =
        Except.error e →
      runLoop env (sq :: rest) st =
        runLoop env rest
          ⟨setAns st.answered sq.id
            ⟨sq.id, PyVal.str ("ERROR executing tool " ++
                chosenToolName env (search_tools env.registry env.semIdx txt)
                  (pyGet fd "name") ++ ": " ++ e),
             [chosenToolName env (search_tools env.registry env.semIdx txt)
                (pyGet fd "name")], []⟩,
           st.trace ++
             [(chosenToolName env (search_tools env.registry env.semIdx txt)
                 (pyGet fd "name"),
               normalizedArgs env (chosenToolName env
                 (search_tools env.registry env.semIdx txt)
                 (pyGet fd "name")) fargs)]⟩) ∧
    (∀ (env : Env) (id : Int) (resolved : String) (tools : List String)
       (fd fargs : List (String × PyVal)) (v : PyVal)
       (record : AnsRec) (tr : List (String × List (String × PyVal))),
      pyOr (pyGet fd "arguments") (PyVal.dict []) = PyVal.dict fargs →
      env.toolImpl (chosenToolName env tools (pyGet fd "name"))
        (normalizedArgs env (chosenToolName env tools (pyGet fd "name")) fargs) =
        Except.ok v →
      (∀ d, v ≠ PyVal.dict d) →
      execFunctionCall env id resolved tools (PyVal.dict fd) =
        Except.ok (record, tr) →
      record.extracted_data = [("result", v)] ∧
        record.used_tools = [chosenToolName env tools (pyGet fd "name")]) ∧
    (∀ (env : Env) (query : String) (subs : List Node) (hist : List Exchange)
       (ordered : List Node) (stF : RunState),
      topo_sort_subquestions subs = Except.ok ordered →
      runLoop env ordered ⟨[], []⟩ = Except.ok stF →
      ∃ res : AnswerResult, answer env query subs hist =
        (Except.ok res, stF.trace) ∧
        res.report = textOr (env.oracle (OCall.final query
          (stF.answered.map (fun p => p.2)))).text "No final text") := by
  refine ⟨?_, ?_, ?_⟩
  · intro env sq rest st txt out fd fargs e hres htools hor hfc hfd hargs himpl
    have hstep := processNode_toolbranch env sq st txt out fd hres htools hor hfc hfd
    rw [execFunctionCall_error env sq.id txt _ fd fargs e hargs himpl] at hstep
    calc runLoop env (sq :: rest) st
        = (match processNode env sq st with
           | Except.error e => Except.error e
           | Except.ok st2 => runLoop env rest st2) := rfl
      _ = _ := by rw [hstep]
  · intro env id resolved tools fd fargs v record tr hargs himpl hnd hexec
    rw [execFunctionCall_wrap env id resolved tools fd fargs v hargs himpl hnd]
      at hexec
    simp only [Except.ok.injEq, Prod.mk.injEq] at hexec
    obtain ⟨hrec, _⟩ := hexec
    subst hrec
    exact ⟨rfl, rfl⟩
  · intro env query subs hist ordered stF ht hl
    refine ⟨⟨textOr (env.oracle (OCall.final query
        (stF.answered.map (fun p => p.2)))).text "No final text",
      stF.answered.map (fun p => p.2), subs,
      trimHistory (hist ++ [⟨query, textOr (env.oracle (OCall.final query
        (stF.answered.map (fun p => p.2)))).text "No final text",
        stF.answered.map (fun p => p.2)⟩])⟩, ?_, rfl⟩
    unfold answer
    simp only [ht, hl]

/-- Witness for C6's failure-isolation part: in `demoToolEnv` the node
`"price"` selects the raising price tool; the step records the errored
answer with the attempted tool and its traced invocation, and continues
the loop. -/
theorem claim_C6_tool_failure_isolated_witness :
    runLoop demoToolEnv [⟨1, "price", []⟩] ⟨[], []⟩ =
      runLoop demoToolEnv []
        ⟨setAns [] 1 ⟨1, PyVal.str "ERROR executing tool get_stock_price: boom",
            ["get_stock_price"], []⟩,
         [("get_stock_price", [("ticker", PyVal.str "FPT")])]⟩ :=
  claim_C6_tool_failure_isolated.1 demoToolEnv ⟨1, "price", []⟩ [] ⟨[], []⟩
    "price" ⟨Option.none, PyVal.dict demoFd⟩ demoFd [("ticker", PyVal.str "FPT")]
    "boom" (by rfl) (fun h => List.noConfusion h) (by rfl) (by rfl)
    (fun h => List.noConfusion h) (by rfl) (by rfl)

/-! ### Tool selection merge (C8) -/

theorem foldRules_spec (registry : List ToolMeta) (q : String)
    (base : List String) :
    ∀ (rules : List ((String → Bool) × String)) (acc : List String),
      rules.foldl (applyRule registry q) (acc.reverse ++ base) =
        (rules.foldl (collectRule registry q base) acc).reverse ++ base := by
  intro rules
  induction rules with
  | nil => intro acc; rfl
  | cons r rest ih =>
    intro acc
    simp only [List.foldl_cons]
    by_cases hc : r.1 q = true
    case neg =>
      have ha : applyRule registry q (acc.reverse ++ base) r =
          acc.reverse ++ base := by
        simp [applyRule, hc]
      have hb : collectRule registry q base acc r = acc := by
        simp [collectRule, hc]
      rw [ha, hb]
      exact ih acc
    case pos =>
      cases hm : regGet registry r.2 with
      | none =>
        have ha : applyRule registry q (acc.reverse ++ base) r =
            acc.reverse ++ base := by
          simp [applyRule, hc, hm]
        have hb : collectRule registry q base acc r = acc := by
          simp [collectRule, hc, hm]
        rw [ha, hb]
        exact ih acc
      | some meta =>
        have hbc : ((acc.reverse ++ base).contains meta.name) =
            (base.contains meta.name || acc.contains meta.name) := by
          simp [Bool.or_comm]
        cases hmem : (base.contains meta.name || acc.contains meta.name) with
        | true =>
          have ha : applyRule registry q (acc.reverse ++ base) r =
              acc.reverse ++ base := by
            rw [applyRule]
            rw [if_pos hc, hm]
            simp only [hbc, hmem, if_true]
          have hb : collectRule registry q base acc r = acc := by
            rw [collectRule]
            rw [if_pos hc, hm]
            simp only [hmem, if_true]
          rw [ha, hb]
          exact ih acc
        | false =>
          have ha : applyRule registry q (acc.reverse ++ base) r =
              meta.name :: (acc.reverse ++ base) := by
            rw [applyRule]
            rw [if_pos hc, hm]
            simp only [hbc, hmem, Bool.false_eq_true, if_false]
          have hb : collectRule registry q base acc r = acc ++ [meta.name] := by
            rw [collectRule]
            rw [if_pos hc, hm]
            simp only [hmem, Bool.false_eq_true, if_false]
          rw [ha, hb]
          have hshift : meta.name :: (acc.reverse ++ base) =
              (acc ++ [meta.name]).reverse ++ base := by
            simp
          rw [hshift]
          exact ih (acc ++ [meta.name])

/-- C8 counterexample: the claim places every keyword-rule hit at the
front of the candidate list.  With the semantic stage ranking
`google_search` before `get_stock_price`, the query `"price"` fires the
price keyword rule, yet the selector's output keeps `get_stock_price` in
its semantic position — second, not at the front — because the rule's
insertion is skipped for an already-present tool. -/
theorem claim_C8_counterexample :
    search_tools demoSemRegistry demoSemIdx "price" =
      ["google_search", "get_stock_price"] ∧
    keywordRules.any
      (fun r => r.1 (pyLower "price") && r.2 == "get_stock_price") = true ∧
    (search_tools demoSemRegistry demoSemIdx "price").head? ≠
      some "get_stock_price" := by
  refine ⟨by rfl, by rfl, ?_⟩
  intro h
  rw [show search_tools demoSemRegistry demoSemIdx "price" =
    ["google_search", "get_stock_price"] from rfl] at h
  simp at h

/-- C8 amended: the selector's output is exactly the semantic candidates
in their original rank order, prefixed by the keyword-rule hits that were
not already present (in the semantic list or inserted by an earlier
rule), the most recently matched rule nearest the front; a hit already
present keeps its existing position instead of moving to the front. -/
theorem claim_C8_amended (registry : List ToolMeta)
    (semIdx : Option (String → List String)) (resolved : String) :
    search_tools registry semIdx resolved =
      (ruleHitsSpec registry (pyLower resolved)
        (semanticTools registry semIdx resolved)).reverse ++
      semanticTools registry semIdx resolved := by
  have h := foldRules_spec registry (pyLower resolved)
    (semanticTools registry semIdx resolved) keywordRules []
  simpa [search_tools, ruleHitsSpec] using h

/-! ### The scheduler (C1, C2)

Ground lemmas about the key list, the graph build and the Kahn loop. -/

theorem pyKeysAux_mem (x : Int) :
    ∀ (l seen : List Int), x ∈ pyKeysAux seen l ↔ x ∈ l ∧ x ∉ seen := by
  intro l
  induction l with
  | nil => intro seen; simp [pyKeysAux]
  | cons i rest ih =>
    intro seen
    unfold pyKeysAux
    by_cases hc : seen.contains i
    · rw [if_pos hc]
      rw [ih seen]
      constructor
      · rintro ⟨h1, h2⟩
        exact ⟨List.mem_cons_of_mem _ h1, h2⟩
      · rintro ⟨h1, h2⟩
        rcases List.mem_cons.mp h1 with rfl | h1
        · exact absurd (by simpa using hc) h2
        · exact ⟨h1, h2⟩
    · rw [if_neg hc]
      simp only [List.mem_cons, ih (seen ++ [i]), List.mem_append,
        List.mem_singleton]
      constructor
      · rintro (rfl | ⟨h1, h2⟩)
        · exact ⟨Or.inl rfl, by simpa using hc⟩
        · exact ⟨Or.inr h1, fun hs => h2 (Or.inl hs)⟩
      · rintro ⟨rfl | h1, h2⟩
        · exact Or.inl rfl
        · by_cases hx : x = i
          · exact Or.inl hx
          · exact Or.inr ⟨h1, by simp [hx, h2]⟩

theorem pyKeysAux_nodup : ∀ (l seen : List Int), (pyKeysAux seen l).Nodup := by
  intro l
  induction l with
  | nil => intro seen; simp [pyKeysAux]
  | cons i rest ih =>
    intro seen
    unfold pyKeysAux
    by_cases hc : seen.contains i
    · rw [if_pos hc]
      exact ih seen
    · rw [if_neg hc]
      refine List.nodup_cons.mpr ⟨?_, ih (seen ++ [i])⟩
      intro hmem
      exact ((pyKeysAux_mem i rest (seen ++ [i])).mp hmem).2 (by simp)

theorem pyKeysAux_length_le : ∀ (l seen : List Int),
    (pyKeysAux seen l).length ≤ l.length := by
  intro l
  induction l with
  | nil => intro seen; simp [pyKeysAux]
  | cons i rest ih =>
    intro seen
    unfold pyKeysAux
    by_cases hc : seen.contains i
    · rw [if_pos hc]
      exact Nat.le_succ_of_le (ih seen)
    · rw [if_neg hc]
      simpa using ih (seen ++ [i])

theorem pyKeysAux_length_eq : ∀ (l seen : List Int),
    (pyKeysAux seen l).length = l.length → l.Nodup ∧ ∀ x ∈ l, x ∉ seen := by
  intro l
  induction l with
  | nil => intro seen _; simp
  | cons i rest ih =>
    intro seen h
    unfold pyKeysAux at h
    by_cases hc : seen.contains i
    · rw [if_pos hc] at h
      have := pyKeysAux_length_le rest seen
      simp at h
      omega
    · rw [if_neg hc] at h
      simp only [List.length_cons, Nat.succ.injEq] at h
      obtain ⟨hnd, hni⟩ := ih (seen ++ [i]) h
      refine ⟨List.nodup_cons.mpr ⟨?_, hnd⟩, ?_⟩
      · intro hmem
        exact hni i hmem (by simp)
      · intro x hx
        rcases List.mem_cons.mp hx with rfl | hx
        · simpa using hc
        · intro hs
          exact hni x hx (by simp [hs])

theorem pyKeysAux_eq_self : ∀ (l seen : List Int), l.Nodup →
    (∀ x ∈ l, x ∉ seen) → pyKeysAux seen l = l := by
  intro l
  induction l with
  | nil => intro seen _ _; rfl
  | cons i rest ih =>
    intro seen hnd hdisj
    unfold pyKeysAux
    rw [if_neg (by simpa using hdisj i (by simp))]
    congr 1
    refine ih (seen ++ [i]) (List.nodup_cons.mp hnd).2 ?_
    intro x hx
    simp only [List.mem_append, List.mem_singleton]
    rintro (hs | rfl)
    · exact hdisj x (List.mem_cons_of_mem _ hx) hs
    · exact (List.nodup_cons.mp hnd).1 hx

theorem pyKeys_mem (x : Int) (l : List Int) : x ∈ pyKeys l ↔ x ∈ l := by
  unfold pyKeys
  rw [pyKeysAux_mem]
  simp

theorem pyKeys_nodup (l : List Int) : (pyKeys l).Nodup :=
  pyKeysAux_nodup l []

theorem pyKeys_length_le (l : List Int) : (pyKeys l).length ≤ l.length :=
  pyKeysAux_length_le l []

theorem pyKeys_length_eq (l : List Int) :
    (pyKeys l).length = l.length → l.Nodup :=
  fun h => (pyKeysAux_length_eq l [] h).1

theorem pyKeys_eq_self (l : List Int) (h : l.Nodup) : pyKeys l = l :=
  pyKeysAux_eq_self l [] h (by simp)

theorem updF_apply {β : Type} (f : Int → β) (i : Int) (v : β) (x : Int) :
    updF f i v x = if x = i then v else f x := rfl

theorem depsFold_char (subs : List Node) (i : Int) :
    ∀ (deps : List Int) (st : (Int → List Int) × (Int → Int))
      (g : Int → List Int) (ind : Int → Int),
      deps.foldlM (fun st2 dep => addEdge subs st2 i dep) st =
        Except.ok (g, ind) →
      (∀ dep ∈ deps, dep ∈ subs.map Node.id) ∧
      (∀ d x, (g d).count x =
        (st.1 d).count x + if x = i then deps.count d else 0) ∧
      (∀ x, ind x = st.2 x + if x = i then (deps.length : Int) else 0) := by
  intro deps
  induction deps with
  | nil =>
    intro st g ind h
    simp only [List.foldlM_nil] at h
    have hst : st = (g, ind) := by injection h
    subst hst
    refine ⟨by simp, ?_, ?_⟩
    · intro d x
      simp
    · intro x
      simp
  | cons dep rest ih =>
    intro st g ind h
    rw [List.foldlM_cons] at h
    cases hstep : addEdge subs st i dep with
    | error e =>
      rw [hstep] at h
      rw [show ((Except.error e : Except String ((Int → List Int) × (Int → Int))) >>=
        (fun st2 => rest.foldlM (fun st3 dep => addEdge subs st3 i dep) st2)) =
        Except.error e from rfl] at h
      exact Except.noConfusion h
    | ok st2 =>
      rw [hstep] at h
      rw [show ((Except.ok st2 : Except String ((Int → List Int) × (Int → Int))) >>=
        (fun st3 => rest.foldlM (fun st4 dep => addEdge subs st4 i dep) st3)) =
        rest.foldlM (fun st4 dep => addEdge subs st4 i dep) st2 from rfl] at h
      unfold addEdge at hstep
      by_cases hc : (subs.map Node.id).contains dep
      · rw [if_pos hc] at hstep
        injection hstep with hstep
        obtain ⟨hvalid, hcount, hind⟩ := ih st2 g ind h
        refine ⟨?_, ?_, ?_⟩
        · intro d hd
          rcases List.mem_cons.mp hd with rfl | hd
          · simpa using hc
          · exact hvalid d hd
        · intro d x
          rw [hcount d x, ← hstep]
          simp only [updF_apply]
          by_cases hdi : d = dep
          · by_cases hxi : x = i
            · subst hdi hxi
              simp [List.count_append, List.count_cons]
              try omega
            · subst hdi
              simp [hxi, List.count_append, List.count_cons]
              try omega
          · by_cases hxi : x = i
            · subst hxi
              simp [hdi, List.count_cons, Ne.symm hdi]
              try omega
            · simp [hdi, hxi]
              try omega
        · intro x
          rw [hind x, ← hstep]
          simp only [updF_apply]
          by_cases hxi : x = i
          · subst hxi
            simp [List.length_cons]
            try omega
          · simp [hxi]
      · rw [if_neg hc] at hstep
        exact absurd hstep (by simp)

theorem buildFold_char (subs : List Node) :
    ∀ (l : List Node) (st : (Int → List Int) × (Int → Int))
      (g : Int → List Int) (ind : Int → Int),
      l.foldlM (fun st sq => sq.depends_on.foldlM
        (fun st2 dep => addEdge subs st2 sq.id dep) st) st =
        Except.ok (g, ind) →
      (∀ sq ∈ l, ∀ dep ∈ sq.depends_on, dep ∈ subs.map Node.id) ∧
      (∀ d x, (g d).count x =
        (st.1 d).count x + (edgesOf l).countP (fun e => e.1 == d && e.2 == x)) ∧
      (∀ x, ind x = st.2 x + ((edgesOf l).countP (fun e => e.2 == x) : Int)) := by
  intro l
  induction l with
  | nil =>
    intro st g ind h
    simp only [List.foldlM_nil] at h
    have hst : st = (g, ind) := by injection h
    subst hst
    refine ⟨by simp, ?_, ?_⟩
    · intro d x
      simp [edgesOf]
    · intro x
      simp [edgesOf]
  | cons sq l ih =>
    intro st g ind h
    rw [List.foldlM_cons] at h
    cases hstep : sq.depends_on.foldlM
        (fun st2 dep => addEdge subs st2 sq.id dep) st with
    | error e =>
      rw [hstep] at h
      rw [show ((Except.error e : Except String ((Int → List Int) × (Int → Int))) >>=
        (fun st2 => l.foldlM (fun st3 sq2 => sq2.depends_on.foldlM
          (fun st4 dep => addEdge subs st4 sq2.id dep) st3) st2)) =
        Except.error e from rfl] at h
      exact Except.noConfusion h
    | ok st2 =>
      rw [hstep] at h
      rw [show ((Except.ok st2 : Except String ((Int → List Int) × (Int → Int))) >>=
        (fun st3 => l.foldlM (fun st4 sq2 => sq2.depends_on.foldlM
          (fun st5 dep => addEdge subs st5 sq2.id dep) st4) st3)) =
        l.foldlM (fun st4 sq2 => sq2.depends_on.foldlM
          (fun st5 dep => addEdge subs st5 sq2.id dep) st4) st2 from rfl] at h
      obtain ⟨hv1, hc1, hi1⟩ := depsFold_char subs sq.id sq.depends_on st st2.1
        st2.2 (by rw [hstep])
      obtain ⟨hv2, hc2, hi2⟩ := ih st2 g ind h
      have hedges : edgesOf (sq :: l) =
          sq.depends_on.map (fun dep => (dep, sq.id)) ++ edgesOf l := by
        simp [edgesOf]
      refine ⟨?_, ?_, ?_⟩
      · intro sq2 hsq2 dep hdep
        rcases List.mem_cons.mp hsq2 with rfl | hsq2
        · exact hv1 dep hdep
        · exact hv2 sq2 hsq2 dep hdep
      · intro d x
        rw [hc2 d x, hc1 d x, hedges, List.countP_append]
        have : (sq.depends_on.map (fun dep => (dep, sq.id))).countP
            (fun e => e.1 == d && e.2 == x) =
            if x = sq.id then sq.depends_on.count d else 0 := by
          by_cases hxi : x = sq.id
          · subst hxi
            rw [if_pos rfl]
            rw [List.countP_map, List.count]
            congr 1
            funext dep
            simp
          · rw [if_neg hxi]
            rw [List.countP_map]
            rw [List.countP_eq_zero.mpr]
            intro dep hdep
            simp [Function.comp]
            intro h2
            exact fun h3 => hxi h3.symm
        rw [this]
        omega
      · intro x
        rw [hi2 x, hi1 x, hedges, List.countP_append]
        have : (sq.depends_on.map (fun dep => (dep, sq.id))).countP
            (fun e => e.2 == x) =
            if x = sq.id then sq.depends_on.length else 0 := by
          by_cases hxi : x = sq.id
          · subst hxi
            rw [if_pos rfl, List.countP_map]
            apply List.countP_eq_length.mpr
            intro dep hdep
            simp [Function.comp]
          · rw [if_neg hxi]
            rw [List.countP_map]
            rw [List.countP_eq_zero.mpr]
            intro dep hdep
            simp [Function.comp]
            exact fun h3 => hxi h3.symm
        rw [this]
        push_cast
        by_cases hxi : x = sq.id
        · simp [hxi]
          omega
        · simp [hxi]

theorem buildGraph_ok_char {subs : List Node} {g : Int → List Int}
    {ind : Int → Int} (h : buildGraph subs = Except.ok (g, ind)) :
    (∀ sq ∈ subs, ∀ dep ∈ sq.depends_on, dep ∈ subs.map Node.id) ∧
    (∀ d x, (g d).count x =
      (edgesOf subs).countP (fun e => e.1 == d && e.2 == x)) ∧
    (∀ x, ind x = ((edgesOf subs).countP (fun e => e.2 == x) : Int)) := by
  obtain ⟨hv, hc, hi⟩ := buildFold_char subs subs _ g ind h
  refine ⟨hv, ?_, ?_⟩
  · intro d x
    simpa using hc d x
  · intro x
    simpa using hi x

theorem depsFold_ok (subs : List Node) (i : Int) :
    ∀ (deps : List Int) (st : (Int → List Int) × (Int → Int)),
      (∀ dep ∈ deps, dep ∈ subs.map Node.id) →
      ∃ st2, deps.foldlM (fun st2 dep => addEdge subs st2 i dep) st =
        Except.ok st2 := by
  intro deps
  induction deps with
  | nil =>
    intro st _
    exact ⟨st, rfl⟩
  | cons dep rest ih =>
    intro st hv
    have hc : (subs.map Node.id).contains dep = true := by
      simpa using hv dep (by simp)
    obtain ⟨st2, h2⟩ := ih (updF st.1 dep (st.1 dep ++ [i]),
      updF st.2 i (st.2 i + 1)) (fun d hd => hv d (List.mem_cons_of_mem _ hd))
    refine ⟨st2, ?_⟩
    rw [List.foldlM_cons]
    rw [show addEdge subs st i dep = Except.ok (updF st.1 dep (st.1 dep ++ [i]),
      updF st.2 i (st.2 i + 1)) from by rw [addEdge, if_pos hc]]
    exact h2

theorem buildFold_ok (subs : List Node) :
    ∀ (l : List Node) (st : (Int → List Int) × (Int → Int)),
      (∀ sq ∈ l, ∀ dep ∈ sq.depends_on, dep ∈ subs.map Node.id) →
      ∃ st2, l.foldlM (fun st sq => sq.depends_on.foldlM
        (fun st2 dep => addEdge subs st2 sq.id dep) st) st = Except.ok st2 := by
  intro l
  induction l with
  | nil =>
    intro st _
    exact ⟨st, rfl⟩
  | cons sq rest ih =>
    intro st hv
    obtain ⟨st1, h1⟩ := depsFold_ok subs sq.id sq.depends_on st
      (hv sq (by simp))
    obtain ⟨st2, h2⟩ := ih st1 (fun s hs d hd => hv s (List.mem_cons_of_mem _ hs) d hd)
    refine ⟨st2, ?_⟩
    rw [List.foldlM_cons, h1]
    exact h2

theorem buildGraph_ok {subs : List Node}
    (hv : ∀ sq ∈ subs, ∀ dep ∈ sq.depends_on, dep ∈ subs.map Node.id) :
    ∃ g ind, buildGraph subs = Except.ok (g, ind) := by
  obtain ⟨⟨g, ind⟩, h⟩ := buildFold_ok subs subs _ hv
  exact ⟨g, ind, h⟩

theorem stepFold_char :
    ∀ (L : List Int) (ind : Int → Int) (acc : List Int),
      (∀ x, (L.foldl (fun p nei =>
          ((updF p.1 nei (p.1 nei - 1)),
           if p.1 nei - 1 = 0 then p.2 ++ [nei] else p.2)) (ind, acc)).1 x =
        ind x - (L.count x : Int)) ∧
      ∃ newly, (L.foldl (fun p nei =>
          ((updF p.1 nei (p.1 nei - 1)),
           if p.1 nei - 1 = 0 then p.2 ++ [nei] else p.2)) (ind, acc)).2 =
          acc ++ newly ∧ newly.Nodup ∧
        (∀ x, x ∈ newly ↔ 1 ≤ ind x ∧ ind x ≤ (L.count x : Int)) := by
  intro L
  induction L with
  | nil =>
    intro ind acc
    refine ⟨fun x => by simp, [], by simp, by simp, ?_⟩
    intro x
    simp
    intro h
    omega
  | cons a L ih =>
    intro ind acc
    simp only [List.foldl_cons]
    obtain ⟨ih1, newly, hnew, hnd, hmem⟩ :=
      ih (updF ind a (ind a - 1)) (if ind a - 1 = 0 then acc ++ [a] else acc)
    constructor
    · intro x
      rw [ih1 x]
      simp only [updF_apply]
      by_cases hx : x = a
      · subst hx
        simp [List.count_cons]
        omega
      · simp [hx, List.count_cons, Ne.symm hx]
        try omega
    · by_cases ha : ind a - 1 = 0
      · refine ⟨a :: newly, ?_, ?_, ?_⟩
        · rw [hnew, if_pos ha]
          simp
        · refine List.nodup_cons.mpr ⟨?_, hnd⟩
          intro hmem2
          have := (hmem a).mp hmem2
          rw [updF_apply, if_pos rfl] at this
          omega
        · intro x
          by_cases hx : x = a
          · subst hx
            simp only [List.mem_cons, true_or, true_iff]
            constructor
            · omega
            · simp [List.count_cons]
              omega
          · simp only [List.mem_cons, hx, false_or]
            rw [hmem x, updF_apply, if_neg hx]
            simp [List.count_cons, Ne.symm hx, hx]
      · refine ⟨newly, ?_, hnd, ?_⟩
        · rw [hnew, if_neg ha]
        · intro x
          by_cases hx : x = a
          · subst hx
            rw [hmem x, updF_apply, if_pos rfl]
            have hcc : List.count x (x :: L) = List.count x L + 1 := by
              simp [List.count_cons]
            rw [hcc]
            push_cast
            omega
          · rw [hmem x, updF_apply, if_neg hx]
            simp [List.count_cons, Ne.symm hx, hx]

theorem kahnStep_char (g : Int → List Int) (ind : Int → Int) (nid : Int) :
    (∀ x, (kahnStep g ind nid).1 x = ind x - ((g nid).count x : Int)) ∧
    (kahnStep g ind nid).2.Nodup ∧
    (∀ x, x ∈ (kahnStep g ind nid).2 ↔
      1 ≤ ind x ∧ ind x ≤ ((g nid).count x : Int)) := by
  obtain ⟨h1, newly, hnew, hnd, hmem⟩ := stepFold_char (g nid) ind []
  have he : (kahnStep g ind nid).2 = newly := by
    rw [kahnStep]
    rw [show ((g nid).foldl (fun p nei =>
      let d := p.1 nei - 1
      (updF p.1 nei d, if d = 0 then p.2 ++ [nei] else p.2)) (ind, [])) =
      ((g nid).foldl (fun p nei =>
      ((updF p.1 nei (p.1 nei - 1)),
       if p.1 nei - 1 = 0 then p.2 ++ [nei] else p.2)) (ind, [])) from rfl]
    rw [hnew]
    simp
  refine ⟨?_, ?_, ?_⟩
  · intro x
    exact h1 x
  · rw [he]
    exact hnd
  · intro x
    rw [he]
    exact hmem x

theorem countP_le_of_imp {α : Type} (E : List α) (p q : α → Bool)
    (himp : ∀ e ∈ E, p e = true → q e = true) :
    E.countP p ≤ E.countP q := by
  induction E with
  | nil => simp
  | cons e E ih =>
    rw [List.countP_cons, List.countP_cons]
    have hrec := ih (fun x hx => himp x (List.mem_cons_of_mem _ hx))
    by_cases hp : p e = true
    · have hqe := himp e (by simp) hp
      simp [hp, hqe]
      try omega
    · simp only [Bool.not_eq_true] at hp
      simp [hp]
      split <;> omega

theorem countP_ge_forces {α : Type} (E : List α) (p q : α → Bool)
    (himp : ∀ e ∈ E, p e = true → q e = true)
    (hge : E.countP q ≤ E.countP p) :
    ∀ e ∈ E, q e = true → p e = true := by
  induction E with
  | nil => simp
  | cons e E ih =>
    intro e2 hmem hq
    rw [List.countP_cons, List.countP_cons] at hge
    have hmono := countP_le_of_imp E p q
      (fun x hx => himp x (List.mem_cons_of_mem _ hx))
    rcases List.mem_cons.mp hmem with rfl | hmem2
    · by_contra hp
      simp only [Bool.not_eq_true] at hp
      simp [hq, hp] at hge
      omega
    · refine ih (fun x hx => himp x (List.mem_cons_of_mem _ hx)) ?_ e2 hmem2 hq
      by_cases hp : p e = true
      · rw [himp e (by simp) hp, hp] at hge
        simp at hge
        omega
      · simp only [Bool.not_eq_true] at hp
        simp [hp] at hge
        split at hge <;> omega

theorem consumed_le_into (E : List (Int × Int)) (res : List Int) (x : Int) :
    consumedCount E res x ≤ intoCount E x := by
  apply countP_le_of_imp
  intro e _ hp
  simp only [Bool.and_eq_true] at hp
  exact hp.2

theorem consumed_append (E : List (Int × Int)) (res : List Int) (nid x : Int)
    (h : nid ∉ res) :
    consumedCount E (res ++ [nid]) x =
      consumedCount E res x + E.countP (fun e => e.1 == nid && e.2 == x) := by
  unfold consumedCount
  induction E with
  | nil => simp
  | cons e E ih =>
    rw [List.countP_cons, List.countP_cons, List.countP_cons, ih]
    have hca : ((res ++ [nid]).contains e.1) =
        (res.contains e.1 || e.1 == nid) := by
      by_cases hm : e.1 ∈ res
      · have h1 : res.contains e.1 = true := by simpa using hm
        have h2 : (res ++ [nid]).contains e.1 = true := by simp [hm]
        rw [h1, h2, Bool.true_or]
      · by_cases hn : e.1 = nid
        · have h1 : (res ++ [nid]).contains e.1 = true := by simp [hn]
          have h2 : res.contains e.1 = false := by simpa using hm
          rw [h1, h2, Bool.false_or]
          exact (beq_iff_eq.mpr hn).symm
        · have h1 : (res ++ [nid]).contains e.1 = false := by simp [hm, hn]
          have h2 : res.contains e.1 = false := by simpa using hm
          have h3 : (e.1 == nid) = false := by simpa using hn
          rw [h1, h2, h3, Bool.false_or]
    rw [hca]
    by_cases h1 : res.contains e.1 = true
    · have h2 : (e.1 == nid) = false := by
        by_contra hb
        simp only [Bool.not_eq_false, beq_iff_eq] at hb
        subst hb
        exact h (by simpa using h1)
      simp only [h1, h2]
      by_cases h3 : e.2 == x <;> simp [h3] <;> omega
    · simp only [Bool.not_eq_true] at h1
      simp only [h1]
      by_cases h2 : (e.1 == nid) = true <;> by_cases h3 : (e.2 == x) = true <;>
        simp [h2, h3] <;> omega

theorem mem_g_iff {subs : List Node} {g : Int → List Int} {keys : List Int}
    (hg : GoodGraph subs g keys) (d x : Int) :
    x ∈ g d ↔ 0 < (edgesOf subs).countP (fun e => e.1 == d && e.2 == x) := by
  rw [← hg.hcount d x]
  exact ⟨fun h => List.count_pos_iff_mem.mpr h,
    fun h => List.count_pos_iff_mem.mp h⟩

theorem countP_pair_le_into (E : List (Int × Int)) (d x : Int) :
    E.countP (fun e => e.1 == d && e.2 == x) ≤ intoCount E x := by
  apply countP_le_of_imp
  intro e _ hp
  simp only [Bool.and_eq_true] at hp
  exact hp.2

theorem exists_edge_of_mem_g {subs : List Node} {g : Int → List Int}
    {keys : List Int} (hg : GoodGraph subs g keys) {d x : Int}
    (h : x ∈ g d) : (d, x) ∈ edgesOf subs := by
  have := (mem_g_iff hg d x).mp h
  obtain ⟨e, hmem, hp⟩ := List.countP_pos.mp this
  simp only [Bool.and_eq_true, beq_iff_eq] at hp
  obtain ⟨h1, h2⟩ := hp
  have : e = (d, x) := Prod.ext h1 h2
  rw [← this]
  exact hmem

theorem kahnInv_init (subs : List Node) (g : Int → List Int)
    (keys : List Int) (ind0 : Int → Int) (hg : GoodGraph subs g keys)
    (hind : ∀ x, ind0 x = (intoCount (edgesOf subs) x : Int)) :
    KahnInv subs g keys ind0 (keys.filter (fun i => ind0 i = 0)) [] := by
  have hseed_mem : ∀ x, x ∈ keys.filter (fun i => ind0 i = 0) ↔
      x ∈ keys ∧ ind0 x = 0 := by
    intro x
    simp [List.mem_filter]
  refine ⟨by simp, List.Nodup.filter _ hg.hkeys_nodup, by simp, by simp,
    fun x hx => ((hseed_mem x).mp hx).1, ?_, ?_, ?_, ?_⟩
  · intro x
    have : consumedCount (edgesOf subs) [] x = 0 := by
      unfold consumedCount
      apply List.countP_eq_zero.mpr
      intro e _
      simp
    rw [this, hind x]
    simp
  · intro x hx
    rw [hseed_mem x]
    have h0 : (0 : Int) ≤ ind0 x := by
      rw [hind x]
      positivity
    constructor
    · rintro (h | ⟨_, h⟩)
      · simp at h
      · omega
    · intro h
      exact Or.inr ⟨hx, by omega⟩
  · intro x hx d hxd
    exfalso
    have h0 : ind0 x = 0 := ((hseed_mem x).mp hx).2
    have hpos := (mem_g_iff hg d x).mp hxd
    have hle := countP_pair_le_into (edgesOf subs) d x
    have : intoCount (edgesOf subs) x = 0 := by
      have := hind x
      omega
    omega
  · intro pre x post heq
    exact absurd heq (by simp)

theorem prefixClosed_append {g : Int → List Int} {res : List Int} {nid : Int}
    (h : PrefixClosed g res) (hn : ∀ d, nid ∈ g d → d ∈ res) :
    PrefixClosed g (res ++ [nid]) := by
  intro pre x post heq d hxd
  rcases List.eq_nil_or_concat post with rfl | ⟨post2, lastE, rfl⟩
  · have hlen : res.length = pre.length := by
      have := congrArg List.length heq
      simp at this
      omega
    obtain ⟨h1, h2⟩ := List.append_inj heq hlen
    injection h2 with h2
    subst h2 h1
    exact hn d hxd
  · rw [List.concat_eq_append, show pre ++ x :: (post2 ++ [lastE]) =
      (pre ++ x :: post2) ++ [lastE] from by simp] at heq
    have hlen : res.length = (pre ++ x :: post2).length := by
      have h2 := congrArg List.length heq
      simp only [List.length_append, List.length_cons,
        List.length_singleton] at h2 ⊢
      omega
    obtain ⟨h1, h2⟩ := List.append_inj heq hlen
    exact h pre x post2 h1 d hxd

theorem kahnInv_step {subs : List Node} {g : Int → List Int}
    {keys : List Int} {indeg : Int → Int} {q2 res : List Int} {nid : Int}
    (hg : GoodGraph subs g keys)
    (hinv : KahnInv subs g keys indeg (nid :: q2) res) :
    KahnInv subs g keys (kahnStep g indeg nid).1
      (q2 ++ (kahnStep g indeg nid).2) (res ++ [nid]) := by
  obtain ⟨hs1, hsnd, hsmem⟩ := kahnStep_char g indeg nid
  have f1 : nid ∉ res := hinv.disj nid (by simp)
  have f2 : nid ∈ keys := hinv.q_keys nid (by simp)
  have f3 : indeg nid ≤ 0 := (hinv.mem_iff nid f2).mp (Or.inr (by simp))
  have f4 : ∀ x ∈ (kahnStep g indeg nid).2, x ∈ g nid := by
    intro x hx
    obtain ⟨h1, h2⟩ := (hsmem x).mp hx
    have : 0 < (g nid).count x := by omega
    exact List.count_pos_iff_mem.mp this
  have f5 : ∀ x ∈ (kahnStep g indeg nid).2, x ∈ keys := by
    intro x hx
    exact hg.htgt _ (exists_edge_of_mem_g hg (f4 x hx))
  have f6 : ∀ x ∈ (kahnStep g indeg nid).2, x ∉ res ∧ x ∉ nid :: q2 := by
    intro x hx
    obtain ⟨h1, _⟩ := (hsmem x).mp hx
    have hnm : ¬ (x ∈ res ∨ x ∈ nid :: q2) := by
      rw [hinv.mem_iff x (f5 x hx)]
      omega
    exact ⟨fun hc => hnm (Or.inl hc), fun hc => hnm (Or.inr hc)⟩
  have hq2nd : q2.Nodup := (List.nodup_cons.mp hinv.q_nodup).2
  have hnidq2 : nid ∉ q2 := (List.nodup_cons.mp hinv.q_nodup).1
  have hcountP : ∀ x, ((g nid).count x : Int) =
      ((edgesOf subs).countP (fun e => e.1 == nid && e.2 == x) : Int) := by
    intro x
    exact_mod_cast hg.hcount nid x
  refine ⟨?_, ?_, ?_, ?_, ?_, ?_, ?_, ?_, ?_⟩
  · rw [List.nodup_append]
    refine ⟨hinv.res_nodup, by simp, ?_⟩
    intro x hx
    simp only [List.mem_singleton]
    intro hc
    subst hc
    exact f1 hx
  · rw [List.nodup_append]
    refine ⟨hq2nd, hsnd, ?_⟩
    intro x hx hx2
    exact (f6 x hx2).2 (List.mem_cons_of_mem _ hx)
  · intro x hx
    rw [List.mem_append] at hx
    rw [List.mem_append, List.mem_singleton]
    rcases hx with hx | hx
    · push_neg
      refine ⟨hinv.disj x (List.mem_cons_of_mem _ hx), ?_⟩
      intro hc
      subst hc
      exact hnidq2 hx
    · push_neg
      exact ⟨(f6 x hx).1, fun hc => (f6 x hx).2 (hc ▸ List.mem_cons_self _ _)⟩
  · intro x hx
    rw [List.mem_append, List.mem_singleton] at hx
    rcases hx with hx | rfl
    · exact hinv.res_keys x hx
    · exact f2
  · intro x hx
    rw [List.mem_append] at hx
    rcases hx with hx | hx
    · exact hinv.q_keys x (List.mem_cons_of_mem _ hx)
    · exact f5 x hx
  · intro x
    rw [hs1 x, hinv.indeg_eq x,
      consumed_append (edgesOf subs) res nid x f1, hcountP x]
    push_cast
    ring
  · intro x hx
    constructor
    · intro hmem
      rw [hs1 x]
      rcases hmem with hmem | hmem
      · rw [List.mem_append, List.mem_singleton] at hmem
        have hold : indeg x ≤ 0 := by
          rcases hmem with hm | rfl
          · exact (hinv.mem_iff x hx).mp (Or.inl hm)
          · exact f3
        have : (0 : Int) ≤ ((g nid).count x : Int) := by positivity
        omega
      · rw [List.mem_append] at hmem
        rcases hmem with hm | hm
        · have hold : indeg x ≤ 0 :=
            (hinv.mem_iff x hx).mp (Or.inr (List.mem_cons_of_mem _ hm))
          have : (0 : Int) ≤ ((g nid).count x : Int) := by positivity
          omega
        · obtain ⟨h1, h2⟩ := (hsmem x).mp hm
          omega
    · intro hle
      rw [hs1 x] at hle
      by_cases hold : indeg x ≤ 0
      · have := (hinv.mem_iff x hx).mpr hold
        rcases this with hm | hm
        · exact Or.inl (List.mem_append.mpr (Or.inl hm))
        · rcases List.mem_cons.mp hm with rfl | hm
          · exact Or.inl (List.mem_append.mpr (Or.inr (by simp)))
          · exact Or.inr (List.mem_append.mpr (Or.inl hm))
      · push_neg at hold
        have : x ∈ (kahnStep g indeg nid).2 := by
          rw [hsmem x]
          omega
        exact Or.inr (List.mem_append.mpr (Or.inr this))
  · intro x hx d hxd
    rw [List.mem_append] at hx
    rcases hx with hx | hx
    · exact List.mem_append.mpr (Or.inl
        (hinv.ready x (List.mem_cons_of_mem _ hx) d hxd))
    · obtain ⟨h1, h2⟩ := (hsmem x).mp hx
      have hle0 : (kahnStep g indeg nid).1 x ≤ 0 := by
        rw [hs1 x]
        omega
      have hie : (kahnStep g indeg nid).1 x =
          (intoCount (edgesOf subs) x : Int) -
          (consumedCount (edgesOf subs) (res ++ [nid]) x : Int) := by
        rw [hs1 x, hinv.indeg_eq x,
          consumed_append (edgesOf subs) res nid x f1, hcountP x]
        push_cast
        ring
      have hge : intoCount (edgesOf subs) x ≤
          consumedCount (edgesOf subs) (res ++ [nid]) x := by
        omega
      have hforce := countP_ge_forces (edgesOf subs)
        (fun e => (res ++ [nid]).contains e.1 && e.2 == x)
        (fun e => e.2 == x)
        (fun e _ hp => by
           simp only [Bool.and_eq_true] at hp
           exact hp.2)
        hge
      have hedge := exists_edge_of_mem_g hg hxd
      have := hforce (d, x) hedge (by simp)
      simp only [Bool.and_eq_true] at this
      simpa using this.1
  · exact prefixClosed_append hinv.closed (hinv.ready nid (by simp))

theorem nodup_subset_length {l keys : List Int} (hnd : l.Nodup)
    (hsub : ∀ x ∈ l, x ∈ keys) : l.length ≤ keys.length := by
  calc l.length = l.toFinset.card := (List.toFinset_card_of_nodup hnd).symm
    _ ≤ keys.toFinset.card := by
        apply Finset.card_le_card
        intro x hx
        rw [List.mem_toFinset] at hx ⊢
        exact hsub x hx
    _ ≤ keys.length := List.toFinset_card_le keys

theorem kahnLoop_reaches {subs : List Node} {g : Int → List Int}
    {keys : List Int} (hg : GoodGraph subs g keys) :
    ∀ (fuel : Nat) (indeg : Int → Int) (q res : List Int),
      KahnInv subs g keys indeg q res →
      keys.length - res.length < fuel →
      ∃ indeg2 res2, kahnLoop g fuel indeg q res = res2 ∧
        KahnInv subs g keys indeg2 [] res2 ∧ (res ++ q) <+: res2 := by
  intro fuel
  induction fuel with
  | zero =>
    intro indeg q res _ hfuel
    omega
  | succ fuel ih =>
    intro indeg q res hinv hfuel
    cases q with
    | nil =>
      exact ⟨indeg, res, rfl, hinv, by simp⟩
    | cons nid q2 =>
      have hinv2 := kahnInv_step hg hinv
      have hlen : (res ++ [nid]).length ≤ keys.length :=
        nodup_subset_length hinv2.res_nodup hinv2.res_keys
      have hfuel2 : keys.length - (res ++ [nid]).length < fuel := by
        simp only [List.length_append, List.length_singleton] at hlen ⊢
        omega
      obtain ⟨ind2, res2, heq, hinvf, hpre⟩ := ih (kahnStep g indeg nid).1
        (q2 ++ (kahnStep g indeg nid).2) (res ++ [nid]) hinv2 hfuel2
      refine ⟨ind2, res2, ?_, hinvf, ?_⟩
      · rw [show kahnLoop g (fuel + 1) indeg (nid :: q2) res =
          kahnLoop g fuel (kahnStep g indeg nid).1
            (q2 ++ (kahnStep g indeg nid).2) (res ++ [nid]) from rfl]
        exact heq
      · have h1 : res ++ nid :: q2 <+:
            (res ++ [nid]) ++ (q2 ++ (kahnStep g indeg nid).2) :=
          ⟨(kahnStep g indeg nid).2, by simp⟩
        exact h1.trans hpre

theorem mem_edgesOf {subs : List Node} {e : Int × Int} :
    e ∈ edgesOf subs ↔ ∃ sq ∈ subs, sq.id = e.2 ∧ e.1 ∈ sq.depends_on := by
  unfold edgesOf
  rw [List.mem_bind]
  constructor
  · rintro ⟨sq, hsq, hmem⟩
    rw [List.mem_map] at hmem
    obtain ⟨dep, hdep, heq⟩ := hmem
    exact ⟨sq, hsq, by rw [← heq], by rw [← heq]; exact hdep⟩
  · rintro ⟨sq, hsq, hid, hdep⟩
    refine ⟨sq, hsq, ?_⟩
    rw [List.mem_map]
    refine ⟨e.1, hdep, ?_⟩
    rw [hid]

theorem countP_target_map (deps : List Int) (i x : Int) :
    (deps.map (fun dep => (dep, i))).countP (fun e => e.2 == x) =
      if x = i then deps.length else 0 := by
  rw [List.countP_map]
  by_cases hxi : x = i
  · subst hxi
    rw [if_pos rfl]
    apply List.countP_eq_length.mpr
    intro dep _
    simp [Function.comp]
  · rw [if_neg hxi]
    apply List.countP_eq_zero.mpr
    intro dep _
    simp [Function.comp]
    exact fun h => hxi h.symm

theorem intoCount_of_nodup {subs : List Node}
    (hnd : (subs.map Node.id).Nodup) :
    ∀ sq ∈ subs, intoCount (edgesOf subs) sq.id = sq.depends_on.length := by
  induction subs with
  | nil => simp
  | cons sq0 rest ih =>
    intro sq hsq
    have hnd2 : (rest.map Node.id).Nodup := (List.nodup_cons.mp hnd).2
    have hid0 : sq0.id ∉ rest.map Node.id := (List.nodup_cons.mp hnd).1
    have hsplit : intoCount (edgesOf (sq0 :: rest)) sq.id =
        (sq0.depends_on.map (fun dep => (dep, sq0.id))).countP
          (fun e => e.2 == sq.id) +
        intoCount (edgesOf rest) sq.id := by
      unfold intoCount
      rw [show edgesOf (sq0 :: rest) =
        (sq0.depends_on.map (fun dep => (dep, sq0.id))) ++ edgesOf rest
        from rfl, List.countP_append]
    rcases List.mem_cons.mp hsq with rfl | hsq2
    · rw [hsplit, countP_target_map, if_pos rfl]
      have : intoCount (edgesOf rest) sq.id = 0 := by
        unfold intoCount
        apply List.countP_eq_zero.mpr
        intro e hmem
        obtain ⟨sq2, hsq2, hid2, _⟩ := mem_edgesOf.mp hmem
        by_contra hb
        simp only [Bool.not_eq_false, beq_iff_eq] at hb
        apply hid0
        rw [List.mem_map]
        exact ⟨sq2, hsq2, by rw [hid2, hb]⟩
      omega
    · rw [hsplit, countP_target_map, if_neg, ih hnd2 sq hsq2]
      · omega
      · intro hc
        apply hid0
        rw [List.mem_map]
        exact ⟨sq, hsq2, hc ▸ rfl⟩

theorem idMapGet_mem {subs : List Node} {i : Int} {sq : Node}
    (h : idMapGet subs i = some sq) : sq ∈ subs ∧ sq.id = i := by
  unfold idMapGet at h
  have hm := List.mem_of_find?_eq_some h
  have hp := List.find?_some h
  rw [List.mem_reverse] at hm
  exact ⟨hm, by simpa using hp⟩

theorem idMapGet_isSome_of_mem {subs : List Node} {i : Int}
    (h : i ∈ subs.map Node.id) : (idMapGet subs i).isSome = true := by
  unfold idMapGet
  rw [List.find?_isSome]
  rw [List.mem_map] at h
  obtain ⟨sq, hsq, hid⟩ := h
  exact ⟨sq, by simpa using hsq, by simp [hid]⟩

theorem idMapGet_of_mem {subs : List Node}
    (hnd : (subs.map Node.id).Nodup) :
    ∀ sq ∈ subs, idMapGet subs sq.id = some sq := by
  intro sq hsq
  have hsome : (idMapGet subs sq.id).isSome = true :=
    idMapGet_isSome_of_mem (List.mem_map.mpr ⟨sq, hsq, rfl⟩)
  obtain ⟨sq2, hsq2⟩ := Option.isSome_iff_exists.mp hsome
  obtain ⟨hmem2, hid2⟩ := idMapGet_mem hsq2
  have : sq2 = sq := by
    have h1 : subs.map Node.id |>.Nodup := hnd
    by_contra hne
    have hinj := List.inj_on_of_nodup_map h1
    exact hne (hinj hmem2 hsq (by rw [hid2]))
  rw [hsq2, this]

theorem filterMap_length_of_total {α β : Type} (f : α → Option β) :
    ∀ l : List α, (∀ a ∈ l, (f a).isSome = true) →
      (l.filterMap f).length = l.length := by
  intro l
  induction l with
  | nil => simp
  | cons a l ih =>
    intro h
    rw [List.filterMap_cons]
    obtain ⟨b, hb⟩ := Option.isSome_iff_exists.mp (h a (by simp))
    rw [hb]
    simp only [List.length_cons]
    rw [ih (fun x hx => h x (List.mem_cons_of_mem _ hx))]

theorem filterMap_map_id {subs : List Node} :
    ∀ l : List Node, (∀ sq ∈ l, idMapGet subs sq.id = some sq) →
      (l.map Node.id).filterMap (idMapGet subs) = l := by
  intro l
  induction l with
  | nil => simp
  | cons sq l ih =>
    intro h
    rw [List.map_cons, List.filterMap_cons, h sq (by simp)]
    rw [ih (fun x hx => h x (List.mem_cons_of_mem _ hx))]

theorem filterMap_decomp {α β : Type} (f : α → Option β) :
    ∀ (l : List α) (pre : List β) (x : β) (post : List β),
      l.filterMap f = pre ++ x :: post →
      ∃ l1 a l2, l = l1 ++ a :: l2 ∧ f a = some x ∧
        l1.filterMap f = pre ∧ l2.filterMap f = post := by
  intro l
  induction l with
  | nil =>
    intro pre x post h
    exact absurd h (by simp)
  | cons a l ih =>
    intro pre x post h
    rw [List.filterMap_cons] at h
    cases hf : f a with
    | none =>
      rw [hf] at h
      obtain ⟨l1, a2, l2, hl, hfa, hpre, hpost⟩ := ih pre x post h
      exact ⟨a :: l1, a2, l2, by rw [hl, List.cons_append], hfa,
        by rw [List.filterMap_cons, hf, hpre], hpost⟩
    | some b =>
      rw [hf] at h
      cases pre with
      | nil =>
        simp only [List.nil_append] at h
        injection h with h1 h2
        subst h1
        exact ⟨[], a, l, rfl, hf, rfl, h2⟩
      | cons p pre2 =>
        simp only [List.cons_append] at h
        injection h with h1 h2
        subst h1
        obtain ⟨l1, a2, l2, hl, hfa, hpre, hpost⟩ := ih pre2 x post h2
        exact ⟨a :: l1, a2, l2, by rw [hl, List.cons_append], hfa,
          by rw [List.filterMap_cons, hf, hpre], hpost⟩

theorem list_exists_min_image (l : List Int) (f : Int → Nat) (h : l ≠ []) :
    ∃ a ∈ l, ∀ b ∈ l, f a ≤ f b := by
  induction l with
  | nil => exact absurd rfl h
  | cons a l ih =>
    cases l with
    | nil =>
      refine ⟨a, by simp, ?_⟩
      intro b hb
      simp at hb
      subst hb
      exact le_rfl
    | cons c l2 =>
      obtain ⟨m, hm, hmin⟩ := ih (by simp)
      by_cases hc : f a ≤ f m
      · refine ⟨a, by simp, ?_⟩
        intro b hb
        rcases List.mem_cons.mp hb with rfl | hb
        · exact le_rfl
        · exact hc.trans (hmin b hb)
      · refine ⟨m, List.mem_cons_of_mem _ hm, ?_⟩
        intro b hb
        rcases List.mem_cons.mp hb with rfl | hb
        · omega
        · exact hmin b hb

theorem topo_run {subs : List Node} {g : Int → List Int} {ind : Int → Int}
    (hb : buildGraph subs = Except.ok (g, ind)) :
    GoodGraph subs g (pyKeys (subs.map Node.id)) ∧
    ∃ indeg2,
      KahnInv subs g (pyKeys (subs.map Node.id)) indeg2 []
        (kahnLoop g (subs.length + 1) ind
          ((pyKeys (subs.map Node.id)).filter (fun i => ind i = 0)) []) ∧
      ((pyKeys (subs.map Node.id)).filter (fun i => ind i = 0)) <+:
        (kahnLoop g (subs.length + 1) ind
          ((pyKeys (subs.map Node.id)).filter (fun i => ind i = 0)) []) := by
  obtain ⟨hv, hc, hi⟩ := buildGraph_ok_char hb
  have hg : GoodGraph subs g (pyKeys (subs.map Node.id)) := by
    refine ⟨hc, ?_, ?_, pyKeys_nodup _⟩
    · intro e he
      obtain ⟨sq, hsq, _, hdep⟩ := mem_edgesOf.mp he
      exact (pyKeys_mem _ _).mpr (hv sq hsq e.1 hdep)
    · intro e he
      obtain ⟨sq, hsq, hid, _⟩ := mem_edgesOf.mp he
      exact (pyKeys_mem _ _).mpr (List.mem_map.mpr ⟨sq, hsq, hid⟩)
  have hind : ∀ x, ind x = (intoCount (edgesOf subs) x : Int) := hi
  have hinit := kahnInv_init subs g (pyKeys (subs.map Node.id)) ind hg hind
  have hfuel : (pyKeys (subs.map Node.id)).length -
      ([] : List Int).length < subs.length + 1 := by
    have h1 := pyKeys_length_le (subs.map Node.id)
    rw [List.length_map] at h1
    simp
    omega
  obtain ⟨ind2, res2, heq, hfin, hpre⟩ := kahnLoop_reaches hg
    (subs.length + 1) ind
    ((pyKeys (subs.map Node.id)).filter (fun i => ind i = 0)) [] hinit hfuel
  rw [heq]
  refine ⟨hg, ind2, hfin, ?_⟩
  simpa using hpre

theorem topo_ok_buildGraph {subs : List Node} {out : List Node}
    (h : topo_sort_subquestions subs = Except.ok out) :
    ∃ g ind, buildGraph subs = Except.ok (g, ind) := by
  unfold topo_sort_subquestions at h
  cases hb : buildGraph subs with
  | error e =>
    rw [hb] at h
    exact absurd h (by simp)
  | ok p =>
    obtain ⟨g, ind⟩ := p
    exact ⟨g, ind, rfl⟩

theorem topo_ok_char {subs : List Node} {out : List Node}
    (h : topo_sort_subquestions subs = Except.ok out) :
    (subs.map Node.id).Nodup ∧
    out.Perm subs ∧
    (∀ (pre : List Node) (sq : Node) (post : List Node),
      out = pre ++ sq :: post →
      ∀ dep ∈ sq.depends_on, ∃ sq2 ∈ pre, sq2.id = dep) ∧
    subs.filter (fun sq => sq.depends_on.isEmpty) <+: out := by
  obtain ⟨g, ind, hb⟩ := topo_ok_buildGraph h
  unfold topo_sort_subquestions at h
  rw [hb] at h
  simp only [] at h
  set keys := pyKeys (subs.map Node.id) with hkeys
  set seeds := keys.filter (fun i => ind i = 0) with hseeds
  set resIds := kahnLoop g (subs.length + 1) ind seeds [] with hresIds
  set result := resIds.filterMap (fun i => idMapGet subs i) with hresult
  by_cases hlen : result.length = subs.length
  · rw [if_pos hlen] at h
    have hout : out = result := by
      injection h with h2
      exact h2.symm
    obtain ⟨hg, ind2, hfin, hpre⟩ := topo_run hb
    rw [← hkeys] at hg hfin hpre
    rw [← hseeds] at hfin hpre
    rw [← hresIds] at hfin hpre
    have hsub1 : result.length ≤ resIds.length := List.length_filterMap_le _ _
    have hsub2 : resIds.length ≤ keys.length :=
      nodup_subset_length hfin.res_nodup hfin.res_keys
    have hsub3 : keys.length ≤ subs.length := by
      have h1 := pyKeys_length_le (subs.map Node.id)
      rw [List.length_map] at h1
      exact h1
    have hkeylen : keys.length = (subs.map Node.id).length := by
      rw [List.length_map]
      omega
    have hnd : (subs.map Node.id).Nodup := pyKeys_length_eq _ hkeylen
    have hkeyeq : keys = subs.map Node.id := pyKeys_eq_self _ hnd
    have hperm : resIds.Perm keys := by
      refine (hfin.res_nodup.subperm hfin.res_keys).perm_of_length_le ?_
      omega
    have hresolve : ∀ i ∈ resIds, (idMapGet subs i).isSome = true := by
      intro i hi
      apply idMapGet_isSome_of_mem
      rw [← hkeyeq]
      exact hfin.res_keys i hi
    have hpermOut : out.Perm subs := by
      rw [hout, hresult]
      have h1 : (resIds.filterMap (fun i => idMapGet subs i)).Perm
          (keys.filterMap (fun i => idMapGet subs i)) := hperm.filterMap _
      have h2 : keys.filterMap (fun i => idMapGet subs i) = subs := by
        rw [hkeyeq]
        exact filterMap_map_id subs (idMapGet_of_mem hnd)
      rw [h2] at h1
      exact h1
    refine ⟨hnd, hpermOut, ?_, ?_⟩
    · intro pre sq post hdecomp dep hdep
      rw [hout, hresult] at hdecomp
      obtain ⟨l1, a, l2, hl, hfa, hpre1, hpost1⟩ :=
        filterMap_decomp (fun i => idMapGet subs i) resIds pre sq post hdecomp
      obtain ⟨hsqmem, hsqid⟩ := idMapGet_mem hfa
      have hedge : (dep, a) ∈ edgesOf subs :=
        mem_edgesOf.mpr ⟨sq, hsqmem, by rw [hsqid], hdep⟩
      have hmemg : a ∈ g dep := by
        rw [mem_g_iff hg]
        apply List.countP_pos.mpr
        exact ⟨(dep, a), hedge, by simp⟩
      have hdl1 : dep ∈ l1 := hfin.closed l1 a l2 hl dep hmemg
      have hdepkeys : dep ∈ subs.map Node.id := by
        obtain ⟨hv2, _, _⟩ := buildGraph_ok_char hb
        exact hv2 sq hsqmem dep hdep
      obtain ⟨sq2, hsq2⟩ := Option.isSome_iff_exists.mp
        (idMapGet_isSome_of_mem hdepkeys)
      refine ⟨sq2, ?_, (idMapGet_mem hsq2).2⟩
      rw [← hpre1]
      exact List.mem_filterMap.mpr ⟨dep, hdl1, hsq2⟩
    · have hseedeq : seeds =
          (subs.filter (fun sq => sq.depends_on.isEmpty)).map Node.id := by
        rw [hseeds, hkeyeq, List.filter_map]
        congr 1
        apply List.filter_congr
        intro sq hsq
        have hic := intoCount_of_nodup hnd sq hsq
        have hiv := (buildGraph_ok_char hb).2.2 sq.id
        simp only [Function.comp]
        have : (ind sq.id = 0) ↔ sq.depends_on.isEmpty = true := by
          rw [hiv]
          have hic2 : (edgesOf subs).countP (fun e => e.2 == sq.id) =
              sq.depends_on.length := hic
          rw [hic2, List.isEmpty_iff_length_eq_zero]
          omega
        by_cases hz : ind sq.id = 0
        · simp [hz, this.mp hz]
        · have : sq.depends_on.isEmpty ≠ true := fun hc => hz (this.mpr hc)
          simp [hz, this]
      obtain ⟨tail, htail⟩ := hpre
      rw [hout, hresult, ← htail, List.filterMap_append]
      have hsdeq : seeds.filterMap (fun i => idMapGet subs i) =
          subs.filter (fun sq => sq.depends_on.isEmpty) := by
        rw [hseedeq]
        exact filterMap_map_id _ (fun sq hsq =>
          idMapGet_of_mem hnd sq (List.mem_of_mem_filter hsq))
      rw [hsdeq]
      exact ⟨tail.filterMap (fun i => idMapGet subs i), rfl⟩
  · rw [if_neg hlen] at h
    exact absurd h (by simp)

theorem indexOf_append_first (l1 l2 : List Int) (x : Int) (h : x ∉ l1) :
    List.indexOf x (l1 ++ x :: l2) = l1.length := by
  induction l1 with
  | nil => simp
  | cons a t ih =>
    rw [List.cons_append, List.indexOf_cons_ne,
      ih (fun hm => h (List.mem_cons_of_mem _ hm))]
    · simp
    · intro hc
      exact h (by simp [hc])

theorem indexOf_append_lt (l1 l2 : List Int) (d : Int) (h : d ∈ l1) :
    List.indexOf d (l1 ++ l2) < l1.length := by
  rw [List.indexOf_append_of_mem h]
  exact List.indexOf_lt_length.mpr h

theorem topo_complete {subs : List Node}
    (hnd : (subs.map Node.id).Nodup)
    (hvalid : ∀ sq ∈ subs, ∀ dep ∈ sq.depends_on, dep ∈ subs.map Node.id)
    (rank : Int → Nat)
    (hrank : ∀ d x, edgeRel subs d x → rank d < rank x) :
    ∃ out, topo_sort_subquestions subs = Except.ok out := by
  obtain ⟨g, ind, hb⟩ := buildGraph_ok hvalid
  unfold topo_sort_subquestions
  rw [hb]
  simp only []
  set keys := pyKeys (subs.map Node.id) with hkeys
  set seeds := keys.filter (fun i => ind i = 0) with hseeds
  set resIds := kahnLoop g (subs.length + 1) ind seeds [] with hresIds
  set result := resIds.filterMap (fun i => idMapGet subs i) with hresult
  obtain ⟨hg, ind2, hfin, hpre⟩ := topo_run hb
  rw [← hkeys] at hg hfin hpre
  rw [← hseeds] at hfin hpre
  rw [← hresIds] at hfin hpre
  have hkeyeq : keys = subs.map Node.id := pyKeys_eq_self _ hnd
  have hall : ∀ x ∈ keys, x ∈ resIds := by
    by_contra hno
    push_neg at hno
    have hMne : keys.filter (fun x => ¬ x ∈ resIds) ≠ [] := by
      obtain ⟨x, hx, hnx⟩ := hno
      intro hnil
      have : x ∈ keys.filter (fun x => ¬ x ∈ resIds) :=
        List.mem_filter.mpr ⟨hx, by simpa using hnx⟩
      rw [hnil] at this
      exact absurd this (List.not_mem_nil x)
    obtain ⟨x, hxM, hxmin⟩ :=
      list_exists_min_image (keys.filter (fun x => ¬ x ∈ resIds)) rank hMne
    obtain ⟨hxkeys, hxout⟩ := List.mem_filter.mp hxM
    have hxout2 : x ∉ resIds := by simpa using hxout
    have hpos : 0 < ind2 x := by
      have hmi := hfin.mem_iff x hxkeys
      by_contra hle
      push_neg at hle
      rcases hmi.mpr hle with hmem | hmem
      · exact hxout2 hmem
      · exact absurd hmem (List.not_mem_nil x)
    have hlt : consumedCount (edgesOf subs) resIds x <
        intoCount (edgesOf subs) x := by
      have heq := hfin.indeg_eq x
      omega
    have hex : ∃ e ∈ edgesOf subs, (e.2 == x) = true ∧
        (resIds.contains e.1 && e.2 == x) = false := by
      by_contra hnoe
      push_neg at hnoe
      have himp : ∀ e ∈ edgesOf subs, (e.2 == x) = true →
          (resIds.contains e.1 && e.2 == x) = true := by
        intro e he hq
        cases hbv : (resIds.contains e.1 && e.2 == x) with
        | true => rfl
        | false => exact absurd hbv (hnoe e he hq)
      have := countP_le_of_imp (edgesOf subs)
        (fun e => e.2 == x) (fun e => resIds.contains e.1 && e.2 == x) himp
      unfold intoCount consumedCount at hlt
      omega
    obtain ⟨e, heE, hq, hnp⟩ := hex
    have hex2 : e.2 = x := by simpa using hq
    have hdnot : e.1 ∉ resIds := by
      rw [hq, Bool.and_true] at hnp
      simpa using hnp
    obtain ⟨sq, hsq, hid, hdep⟩ := mem_edgesOf.mp heE
    have hrel : edgeRel subs e.1 x := ⟨sq, hsq, by rw [hid, hex2], hdep⟩
    have hdkeys : e.1 ∈ keys := by
      rw [hkeyeq]
      exact hvalid sq hsq e.1 hdep
    have hdM : e.1 ∈ keys.filter (fun x => ¬ x ∈ resIds) :=
      List.mem_filter.mpr ⟨hdkeys, by simpa using hdnot⟩
    have := hxmin e.1 hdM
    have := hrank e.1 x hrel
    omega
  have hlen1 : keys.length ≤ resIds.length := by
    have hknd : keys.Nodup := by
      rw [hkeyeq] at *
      exact hnd
    exact nodup_subset_length hknd hall
  have hlen2 : resIds.length ≤ keys.length :=
    nodup_subset_length hfin.res_nodup hfin.res_keys
  have hsome : ∀ i ∈ resIds, (idMapGet subs i).isSome = true := by
    intro i hi
    apply idMapGet_isSome_of_mem
    rw [← hkeyeq]
    exact hfin.res_keys i hi
  have hlen : result.length = subs.length := by
    rw [hresult, filterMap_length_of_total _ resIds hsome]
    have h3 : keys.length = subs.length := by
      rw [hkeyeq, List.length_map]
    omega
  rw [if_pos hlen]
  exact ⟨result, rfl⟩

theorem edgeRel_cex_char {a b : Int} (h : edgeRel cexSubs a b) :
    a = 3 ∧ b = 1 := by
  obtain ⟨sq, hsq, hid, hdep⟩ := h
  simp only [cexSubs, List.mem_cons, List.not_mem_nil, or_false] at hsq
  rcases hsq with rfl | rfl | rfl
  · simp only [List.mem_singleton] at hdep
    exact ⟨hdep, hid.symm⟩
  · exact absurd hdep (List.not_mem_nil a)
  · exact absurd hdep (List.not_mem_nil a)

theorem transGen_cex_char {a b : Int}
    (h : Relation.TransGen (edgeRel cexSubs) a b) : a = 3 ∧ b = 1 := by
  induction h with
  | single h1 => exact edgeRel_cex_char h1
  | tail h1 h2 ih => exact ⟨ih.1, (edgeRel_cex_char h2).2⟩

/-- C1: counterexample to the stability clause.  On `cexSubs` every
dependency exists and the graph is acyclic, so the claim applies; nodes 1
and 2 are ordered by no constraint in either direction, and the input
lists 1 before 2, yet the scheduler outputs ids `[2, 3, 1]` with 2 before
1 — the seed queue of Kahn's algorithm reorders unconstrained nodes, so
relative input order is not preserved. -/
theorem claim_C1_counterexample :
    (∀ sq ∈ cexSubs, ∀ dep ∈ sq.depends_on, dep ∈ cexSubs.map Node.id) ∧
    (∀ a, ¬ Relation.TransGen (edgeRel cexSubs) a a) ∧
    ¬ Relation.TransGen (edgeRel cexSubs) 1 2 ∧
    ¬ Relation.TransGen (edgeRel cexSubs) 2 1 ∧
    (∃ out, topo_sort_subquestions cexSubs = Except.ok out ∧
      out.map Node.id = [2, 3, 1]) ∧
    cexSubs.map Node.id = [1, 2, 3] := by
  refine ⟨by decide, ?_, ?_, ?_,
    ⟨[⟨2, "b", []⟩, ⟨3, "c", []⟩, ⟨1, "a", [3]⟩], rfl, rfl⟩, rfl⟩
  · intro a h
    have := transGen_cex_char h
    omega
  · intro h
    have := transGen_cex_char h
    omega
  · intro h
    have := transGen_cex_char h
    omega

/-- C1 (amended): when the node ids are distinct, every `depends_on` id
exists and the dependency relation is acyclic, the scheduler succeeds and
returns a permutation of the input in which every node appears after all
nodes its `depends_on` names.  The original claim's stability clause
(unconstrained nodes keep their relative input order) is dropped: it is
false. -/
theorem claim_C1_amended (subs : List Node)
    (hnd : (subs.map Node.id).Nodup)
    (hvalid : ∀ sq ∈ subs, ∀ dep ∈ sq.depends_on, dep ∈ subs.map Node.id)
    (hacyc : ∀ a, ¬ Relation.TransGen (edgeRel subs) a a) :
    ∃ out, topo_sort_subquestions subs = Except.ok out ∧
      out.Perm subs ∧
      ∀ (pre : List Node) (sq : Node) (post : List Node),
        out = pre ++ sq :: post →
        ∀ dep ∈ sq.depends_on, ∃ sq2 ∈ pre, sq2.id = dep := by
  classical
  have hrank : ∀ d x, edgeRel subs d x →
      ((subs.map Node.id).toFinset.filter
        (fun y => Relation.TransGen (edgeRel subs) y d)).card <
      ((subs.map Node.id).toFinset.filter
        (fun y => Relation.TransGen (edgeRel subs) y x)).card := by
    intro d x hdx
    apply Finset.card_lt_card
    have hsub : (subs.map Node.id).toFinset.filter
        (fun y => Relation.TransGen (edgeRel subs) y d) ⊆
        (subs.map Node.id).toFinset.filter
        (fun y => Relation.TransGen (edgeRel subs) y x) := by
      intro y hy
      obtain ⟨hy1, hy2⟩ := Finset.mem_filter.mp hy
      exact Finset.mem_filter.mpr ⟨hy1, hy2.tail hdx⟩
    rw [Finset.ssubset_iff_of_subset hsub]
    refine ⟨d, ?_, ?_⟩
    · apply Finset.mem_filter.mpr
      refine ⟨?_, Relation.TransGen.single hdx⟩
      rw [List.mem_toFinset]
      obtain ⟨sq, hsq, hid, hdep⟩ := hdx
      exact hvalid sq hsq d hdep
    · intro hc
      exact hacyc d (Finset.mem_filter.mp hc).2
  obtain ⟨out, hout⟩ := topo_complete hnd hvalid _ hrank
  obtain ⟨_, hperm, horder, _⟩ := topo_ok_char hout
  exact ⟨out, hout, hperm, horder⟩

/-- Witness for the amended C1 at the concrete acyclic input. -/
theorem claim_C1_amended_witness :
    ((cexSubs.map Node.id).Nodup ∧
     (∀ sq ∈ cexSubs, ∀ dep ∈ sq.depends_on, dep ∈ cexSubs.map Node.id) ∧
     (∀ a, ¬ Relation.TransGen (edgeRel cexSubs) a a)) ∧
    ∃ out, topo_sort_subquestions cexSubs = Except.ok out ∧
      out.Perm cexSubs ∧
      ∀ (pre : List Node) (sq : Node) (post : List Node),
        out = pre ++ sq :: post →
        ∀ dep ∈ sq.depends_on, ∃ sq2 ∈ pre, sq2.id = dep := by
  have hacyc : ∀ a, ¬ Relation.TransGen (edgeRel cexSubs) a a := by
    intro a h
    have := transGen_cex_char h
    omega
  exact ⟨⟨by decide, by decide, hacyc⟩,
    claim_C1_amended cexSubs (by decide) (by decide) hacyc⟩

/-- C2: a `depends_on` naming an unknown id, or a dependency cycle, makes
the scheduler fail, and `answer` then returns that error with an empty
tool trace — no node is processed, no tool is invoked and no answer
record is created. -/
theorem claim_C2_graph_error_aborts (env : Env) (query : String)
    (subs : List Node) (hist : List Exchange)
    (hbad : (∃ sq ∈ subs, ∃ dep ∈ sq.depends_on, dep ∉ subs.map Node.id) ∨
      ∃ a, Relation.TransGen (edgeRel subs) a a) :
    ∃ e, topo_sort_subquestions subs = Except.error e ∧
      answer env query subs hist = (Except.error e, []) := by
  have herr : ∃ e, topo_sort_subquestions subs = Except.error e := by
    cases htopo : topo_sort_subquestions subs with
    | error e => exact ⟨e, rfl⟩
    | ok out =>
      exfalso
      rcases hbad with hinval | ⟨a, hcyc⟩
      · obtain ⟨g, ind, hb⟩ := topo_ok_buildGraph htopo
        obtain ⟨hv, -, -⟩ := buildGraph_ok_char hb
        obtain ⟨sq, hsq, dep, hdep, hnot⟩ := hinval
        exact hnot (hv sq hsq dep hdep)
      · obtain ⟨hnd, hperm, horder, -⟩ := topo_ok_char htopo
        have hndout : (out.map Node.id).Nodup :=
          ((hperm.map Node.id).nodup_iff).mpr hnd
        have hedge : ∀ d x, edgeRel subs d x →
            (out.map Node.id).indexOf d < (out.map Node.id).indexOf x := by
          intro d x hdx
          obtain ⟨sq, hsq, hid, hdep⟩ := hdx
          have hsqout : sq ∈ out := hperm.mem_iff.mpr hsq
          obtain ⟨pre, post, hdec⟩ := List.append_of_mem hsqout
          obtain ⟨sq2, hsq2, hid2⟩ := horder pre sq post hdec d hdep
          have hmap : out.map Node.id =
              pre.map Node.id ++ sq.id :: post.map Node.id := by
            rw [hdec, List.map_append, List.map_cons]
          have hdpre : d ∈ pre.map Node.id :=
            List.mem_map.mpr ⟨sq2, hsq2, hid2⟩
          have hxnot : sq.id ∉ pre.map Node.id := by
            rw [hmap] at hndout
            obtain ⟨-, -, hdisj⟩ := List.nodup_append.mp hndout
            intro hc
            exact hdisj hc (List.mem_cons_self _ _)
          rw [hmap, ← hid]
          calc List.indexOf d
                (pre.map Node.id ++ sq.id :: post.map Node.id)
              < (pre.map Node.id).length := indexOf_append_lt _ _ _ hdpre
            _ = List.indexOf sq.id
                  (pre.map Node.id ++ sq.id :: post.map Node.id) :=
                (indexOf_append_first _ _ _ hxnot).symm
        have hmono : ∀ c b, Relation.TransGen (edgeRel subs) c b →
            (out.map Node.id).indexOf c < (out.map Node.id).indexOf b := by
          intro c b h
          induction h with
          | single h1 => exact hedge _ _ h1
          | tail h1 h2 ih => exact ih.trans (hedge _ _ h2)
        exact absurd (hmono a a hcyc) (lt_irrefl _)
  obtain ⟨e, he⟩ := herr
  refine ⟨e, he, ?_⟩
  unfold answer
  rw [he]

/-- Witness for C2 at the spec's own cycle 1 → 2 → 1. -/
theorem claim_C2_graph_error_aborts_witness :
    (∃ a, Relation.TransGen (edgeRel cycSubs) a a) ∧
    ∃ e, topo_sort_subquestions cycSubs = Except.error e ∧
      answer demoEnv "q" cycSubs [] = (Except.error e, []) := by
  have h12 : edgeRel cycSubs 1 2 :=
    ⟨⟨2, "b", [1]⟩, List.mem_cons_of_mem _ (List.mem_cons_self _ _), rfl,
      List.mem_singleton.mpr rfl⟩
  have h21 : edgeRel cycSubs 2 1 :=
    ⟨⟨1, "a", [2]⟩, List.mem_cons_self _ _, rfl, List.mem_singleton.mpr rfl⟩
  have hcyc : Relation.TransGen (edgeRel cycSubs) 1 1 :=
    Relation.TransGen.tail (Relation.TransGen.single h12) h21
  exact ⟨⟨1, hcyc⟩, claim_C2_graph_error_aborts demoEnv "q" cycSubs []
    (Or.inr ⟨1, hcyc⟩)⟩

end FinanceAgent
